import Mathlib

/-!
# Two-level multiplier component generator

A shallow embedding of `ComponentGenerator.cpp`.  The generator derives a set of
dimensions from the multiplier length `n` and prints four VHDL modules.  The
embedding keeps the loops of the generator, but lets them build a small syntax
tree of what is printed (cosmetic padding is left out); a second layer gives the
printed VHDL statements their meaning, so that the circuits can be evaluated.
-/

namespace ComponentGenerator

/-! ## Size parameters (source lines 41-64) -/

/-- Recursion behind `floorLog2`: count the halvings that bring `x` below 2. -/
def floorLog2Aux : Nat → Nat → Nat
  | 0, _ => 0
  | fuel + 1, x => if x < 2 then 0 else floorLog2Aux fuel (x / 2) + 1

/-- The C expression `log2(x)` stored in an `int` (or under `floor`), for an
integer `x ≥ 1`: the integer part of the base 2 logarithm. -/
def floorLog2 (x : Nat) : Nat := floorLog2Aux x x

/-- Recursion behind `ceilLog2`: the first exponent `c` with `x ≤ 2 ^ c`. -/
def ceilLog2Aux : Nat → Nat → Nat → Nat
  | 0, c, _ => c
  | fuel + 1, c, x => if x ≤ 2 ^ c then c else ceilLog2Aux fuel (c + 1) x

/-- The C expression `ceil(log2(x))` for `x ≥ 1`: the least `c` with `x ≤ 2 ^ c`.
For a real `x` this only depends on the least integer above `x`, which is how
it is applied to a square root below. -/
def ceilLog2 (x : Nat) : Nat := ceilLog2Aux x 0 x

/-- Recursion behind `floorSqrt`: the last `s` with `s * s ≤ x`. -/
def floorSqrtAux : Nat → Nat → Nat → Nat
  | 0, s, _ => s
  | fuel + 1, s, x => if (s + 1) * (s + 1) ≤ x then floorSqrtAux fuel (s + 1) x else s

/-- Integer part of `sqrt(x)`. -/
def floorSqrt (x : Nat) : Nat := floorSqrtAux x 0 x

/-- Least integer that is not below `sqrt(x)`. -/
def ceilSqrt (x : Nat) : Nat :=
  if floorSqrt x * floorSqrt x = x then floorSqrt x else floorSqrt x + 1

/-- Source: `const int log2n = log2(n);`. -/
def log2n (n : Nat) : Nat := floorLog2 n

/-- Source: `const int q = pow(2, (ceil(log2(sqrt(n)))));`, with the floating
point operations read as exact. -/
def q (n : Nat) : Nat := 2 ^ ceilLog2 (ceilSqrt n)

/-- Source: `const int log2q = log2(q);`. -/
def log2q (n : Nat) : Nat := floorLog2 (q n)

/-- Source: `const int k = n/q;`. -/
def k (n : Nat) : Nat := n / q n

/-- Source: `const int log2k = log2(k);`. -/
def log2k (n : Nat) : Nat := floorLog2 (k n)

/-! ## Bit vector utility (source lines 684-745) -/

/-- Source: `isEmpty`; the loop answers `false` at the first digit that is 1. -/
def isEmpty : List Bool → Bool
  | [] => true
  | b :: rest => if b = true then false else isEmpty rest

/-- The loop of `increment`, `for (int i = ...; i < bv.size(); i++)`, entered at
index `i`; `fuel` bounds the number of iterations left.  A digit that is 0 is
set and ends the loop, a digit that is 1 is cleared and the carry moves on. -/
def incrementLoop (bv : List Bool) : Nat → Nat → List Bool
  | 0, _ => bv
  | fuel + 1, i =>
    if h : i < bv.length then
      if bv[i] = false then bv.set i true
      else incrementLoop (bv.set i false) fuel (i + 1)
    else bv

/-- Source: `increment`; the vector is least significant digit first. -/
def increment (bv : List Bool) : List Bool := incrementLoop bv bv.length 0

/-- The inner loop of `decrement`: `while (i > 0) { i--; bv[i] = 1; }`. -/
def fillOnes (bv : List Bool) : Nat → List Bool
  | 0 => bv
  | i + 1 => fillOnes (bv.set i true) i

/-- The borrow loop of `decrement`, `for (int i = ...; i < bv.size(); i++)`,
entered at index `i`; `fuel` bounds the number of iterations left. -/
def borrow (bv : List Bool) : Nat → Nat → List Bool
  | 0, _ => bv
  | fuel + 1, i =>
    if h : i < bv.length then
      if bv[i] = true then fillOnes (bv.set i false) i
      else borrow bv fuel (i + 1)
    else bv

/-- Source: `decrement`; the vector is least significant digit first. -/
def decrement (bv : List Bool) : List Bool :=
  if isEmpty bv then bv
  else if bv[0]? = some true then bv.set 0 false
  else borrow bv (bv.length - 1) 1

/-- The number a bit vector stands for, least significant digit first. -/
def bvValue : List Bool → Nat
  | [] => 0
  | b :: rest => b.toNat + 2 * bvValue rest

/-- The `while (i > 0)` loop of `intToBinaryString`: each round sets the digit
of the leading power of two of `i` and takes that power away from `i`.  `none`
when `fuel` rounds are not enough. -/
def intToBinaryStringLoop (size : Nat) : Nat → Nat → List Char → Option (List Char)
  | _, 0, str => some str
  | 0, _ + 1, _ => none
  | fuel + 1, i + 1, str =>
    let j := floorLog2 (i + 1)
    intToBinaryStringLoop size fuel (i + 1 - 2 ^ j) (str.set (size - j - 1) '1')

/-- Source: `intToBinaryString`.  For `i = 0` the source converts `log2(0)`,
which is minus infinity, to an `int` and sizes an array with it; that has no
defined result and is `none` here. -/
def intToBinaryString (i : Nat) : Option (List Char) :=
  if i = 0 then none
  else
    let size := floorLog2 i + 1
    intToBinaryStringLoop size i i (List.replicate size '0')

/-- The number denoted by a binary literal, most significant digit first. -/
def binaryLiteralValue (s : List Char) : Nat :=
  s.foldl (fun acc c => 2 * acc + (if c = '1' then 1 else 0)) 0

/-! ## Priority encoder (source lines 105-265) -/

/-- Right hand side of a `slice_or(i) <= ...;` assignment. -/
inductive SliceRhs where
  | orOf (positions : List Nat)
  | const (b : Bool)
  deriving DecidableEq, Repr

/-- One alternative of the `f_input <= ... when ... else ...;` assignment:
`input(upper downto lower)`, and the literal `c_output` is compared with
(`none` for the closing alternative, which has no condition). -/
structure SelBranch where
  upper : Nat
  lower : Nat
  cond : Option (List Char)
  deriving DecidableEq, Repr

/-- What `genEncoder` prints in the architecture of `priority_encoder_n`. -/
structure EncoderModule where
  components : List Nat
  sliceOr : List (Nat × SliceRhs)
  coarseEncoder : Nat
  selection : List SelBranch
  fineEncoder : Nat
  deriving DecidableEq, Repr

/-- Component declarations (lines 148-168): `priority_encoder_k`, and
`priority_encoder_q` when `q != k`. -/
def encoderComponents (n : Nat) : List Nat :=
  [k n] ++ (if q n ≠ k n then [q n] else [])

/-- Inner loop of the OR gates (lines 191-206): `pos = (q * (i + 1)) - j` for
`j = 1, ..., q`. -/
def orPositions (n i : Nat) : List Nat :=
  (List.range (q n)).map (fun t => q n * (i + 1) - (t + 1))

/-- Outer loop of the OR gates (line 187), `for (int i = ...; i > 0; i--)`. -/
def sliceOrLoop (n : Nat) : Nat → List (Nat × SliceRhs)
  | 0 => []
  | i + 1 => (i + 1, SliceRhs.orOf (orPositions n (i + 1))) :: sliceOrLoop n i

/-- All `slice_or` assignments (lines 184-211). -/
def encoderSliceOr (n : Nat) : List (Nat × SliceRhs) :=
  sliceOrLoop n (k n - 1) ++ [(0, SliceRhs.const true)]

/-- The loop building `sel_str` (lines 220-251), `for (int i = ...; i > 0; i--)`. -/
def selectionLoop (n : Nat) : Nat → Option (List SelBranch)
  | 0 => some []
  | i + 1 =>
    let upper := q n * (i + 1) - 1
    let lower := q n * i
    if i + 1 > 1 then
      (intToBinaryString i).bind fun bs =>
        (selectionLoop n i).map fun rest => ⟨upper, lower, some bs⟩ :: rest
    else
      (selectionLoop n i).map fun rest => ⟨upper, lower, none⟩ :: rest

/-- Source: `genEncoder`. -/
def genEncoder (n : Nat) : Option EncoderModule :=
  (selectionLoop n (k n)).map fun sel =>
    { components := encoderComponents n
      sliceOr := encoderSliceOr n
      coarseEncoder := k n
      selection := sel
      fineEncoder := q n }

/-- Value of `slice_or(g)`: the assignment to index `g`, an OR over bits of
`input`.  An index without assignment reads as `false`. -/
def evalSliceOr (assigns : List (Nat × SliceRhs)) (input : Nat → Bool) (g : Nat) : Bool :=
  match assigns.find? (fun a => a.1 = g) with
  | some (_, SliceRhs.orOf ps) => ps.any input
  | some (_, SliceRhs.const b) => b
  | none => false

/-- The vector `input(upper downto lower)`: its bit `t` is `input(lower + t)`,
and it has no bits past `upper - lower`. -/
def inputSlice (input : Nat → Bool) (upper lower : Nat) : Nat → Bool :=
  fun t => decide (lower + t ≤ upper) && input (lower + t)

/-- Value of `f_input`: the slice of the first alternative whose condition
holds, the literal being read as a number. -/
def evalSelection (input : Nat → Bool) (c_output : Nat) : List SelBranch → Option (Nat → Bool)
  | [] => none
  | b :: rest =>
    match b.cond with
    | none => some (inputSlice input b.upper b.lower)
    | some lit =>
      if c_output = binaryLiteralValue lit then some (inputSlice input b.upper b.lower)
      else evalSelection input c_output rest

/-- Value of `output` of the printed encoder for the given `input`, where
`enc w` is the behaviour of the referenced component `priority_encoder_w`:
`output(log2n-1 downto log2q) <= c_output` and the fine encoder drives
`output(log2q-1 downto 0)`. -/
def evalEncoder (n : Nat) (enc : Nat → (Nat → Bool) → Nat) (md : EncoderModule)
    (input : Nat → Bool) : Option Nat :=
  let c_output := enc md.coarseEncoder (evalSliceOr md.sliceOr input)
  (evalSelection input c_output md.selection).map fun f_input =>
    c_output * 2 ^ log2q n + enc md.fineEncoder f_input

/-- `r` is the index of the most significant set bit of the `w`-bit vector `f`. -/
def IsMsbIndex (w : Nat) (f : Nat → Bool) (r : Nat) : Prop :=
  r < w ∧ f r = true ∧ ∀ j, r < j → j < w → f j = false

/-- A reference priority encoder: scans the indices below `w` upwards and keeps
the last one that is set. -/
def msbIndex : Nat → (Nat → Bool) → Nat
  | 0, _ => 0
  | w + 1, f => if f w then w else msbIndex w f

/-! ## Barrel shifter (source lines 267-398) -/

/-- Operand of a concatenation `... & ... & ...` in the shifter. -/
inductive Piece where
  | zeros (count : Nat)
  | input
  | fineResult
  | q0s
  | zeroBit
  | coarseResult
  deriving DecidableEq, Repr

/-- One alternative `expr when shamt = amount else`. -/
structure LadderBranch where
  expr : List Piece
  amount : Nat
  deriving DecidableEq, Repr

/-- A conditional assignment: alternatives in printed order, then the closing
alternative without condition. -/
structure Ladder where
  branches : List LadderBranch
  default : List Piece
  deriving DecidableEq, Repr

/-- What `genBarrelShifter` prints after `begin`. -/
structure ShifterModule where
  fine : Ladder
  coarse : Ladder
  output : List Piece
  deriving DecidableEq, Repr

/-- Fine shift loop (lines 336-358), `for (int i = ...; i >= 1; i--)`. -/
def fineLoop (n : Nat) : Nat → List LadderBranch
  | 0 => []
  | i + 1 =>
    { expr := (if (q n - 1) - (i + 1) > 0 then [Piece.zeros ((q n - 1) - (i + 1))] else [])
        ++ [Piece.input, Piece.zeros (i + 1)]
      amount := i + 1 } :: fineLoop n i

/-- Coarse shift loop (lines 369-383), `for (int i = ...; i >= 1; i--)`. -/
def coarseLoop (n : Nat) : Nat → List LadderBranch
  | 0 => []
  | i + 1 =>
    { expr := List.replicate ((k n - 1) - (i + 1)) Piece.q0s ++ [Piece.fineResult]
        ++ List.replicate (i + 1) Piece.q0s
      amount := i + 1 } :: coarseLoop n i

/-- Source: `genBarrelShifter`. -/
def genBarrelShifter (n : Nat) : ShifterModule :=
  { fine := { branches := fineLoop n (q n - 1), default := [Piece.zeros (q n - 1), Piece.input] }
    coarse :=
      { branches := coarseLoop n (k n - 1)
        default := List.replicate (k n - 1) Piece.q0s ++ [Piece.fineResult] }
    output := [Piece.zeroBit, Piece.coarseResult] }

/-- Signals a concatenation may mention; vectors are written most significant
bit first, as in the printed text. -/
structure ShifterEnv where
  input : List Bool
  fineResult : List Bool
  coarseResult : List Bool
  q0s : List Bool

/-- Value of one operand. -/
def evalPiece (env : ShifterEnv) : Piece → List Bool
  | Piece.zeros c => List.replicate c false
  | Piece.input => env.input
  | Piece.fineResult => env.fineResult
  | Piece.q0s => env.q0s
  | Piece.zeroBit => [false]
  | Piece.coarseResult => env.coarseResult

/-- Value of a concatenation: the leftmost operand is the most significant. -/
def evalConcat (env : ShifterEnv) (ps : List Piece) : List Bool :=
  (ps.map (evalPiece env)).flatten

/-- The alternative a conditional assignment takes: the first one whose amount
equals the selector, else the closing one. -/
def selectBranch (ld : Ladder) (sel : Nat) : List Piece :=
  match ld.branches.find? (fun b => b.amount = sel) with
  | some b => b.expr
  | none => ld.default

/-- The number a vector written most significant bit first stands for. -/
def msbValue (bs : List Bool) : Nat :=
  bs.foldl (fun acc b => 2 * acc + b.toNat) 0

/-- Value of `output` of the printed shifter for operand `input` and shift
amount `shamt` (the number held by the `log2n`-bit port):
`shamt_upper <= shamt(log2n-1 downto log2q)`, `shamt_lower <= shamt(log2q-1 downto 0)`. -/
def evalShifter (n : Nat) (md : ShifterModule) (input : List Bool) (shamt : Nat) : List Bool :=
  let shamt_upper := (shamt / 2 ^ log2q n) % 2 ^ (log2n n - log2q n)
  let shamt_lower := shamt % 2 ^ log2q n
  let env0 : ShifterEnv := ⟨input, [], [], List.replicate (q n) false⟩
  let fine_result := evalConcat env0 (selectBranch md.fine shamt_lower)
  let env1 : ShifterEnv := { env0 with fineResult := fine_result }
  let coarse_result := evalConcat env1 (selectBranch md.coarse shamt_upper)
  let env2 : ShifterEnv := { env1 with coarseResult := coarse_result }
  evalConcat env2 md.output

/-! ## Decoder (source lines 400-512) -/

/-- One factor of a printed conjunction: `input(index)` or `not input(index)`. -/
structure AddrLiteral where
  negated : Bool
  index : Int
  deriving DecidableEq, Repr

/-- Inner loop of `genPartialDecoder` (lines 503-508),
`for (int j = upper_range; j >= lower_range; j--)`, with `count` rounds left, so
that `j = lower_range + count - 1`.  Reading `bv` outside its size has no
defined result and is `none`. -/
def conjunctionLoop (bv : List Bool) (lower_range : Int) : Nat → Option (List AddrLiteral)
  | 0 => some []
  | count + 1 =>
    let j : Int := lower_range + count
    (bv[(j - lower_range).toNat]?).bind fun b =>
      (conjunctionLoop bv lower_range count).map fun rest =>
        { negated := (b == false), index := j } :: rest

/-- Outer loop of `genPartialDecoder` (lines 492-511),
`for (int i = max - 1; i >= 0; i--)`, about to print position `i` when called
with `i + 1`; `bv` is the live counter. -/
def partialDecoderLoop (upper_range lower_range : Int) :
    Nat → List Bool → Option (List (Nat × List AddrLiteral))
  | 0, _ => some []
  | i + 1, bv =>
    (conjunctionLoop bv lower_range (upper_range + 1 - lower_range).toNat).bind fun conj =>
      (partialDecoderLoop upper_range lower_range i (decrement bv)).map fun rest =>
        (i, conj) :: rest

/-- Source: `genPartialDecoder`; `bv` starts as `log2(max)` digits, all 1. -/
def genPartialDecoder (max : Nat) (upper_range lower_range : Int) :
    Option (List (Nat × List AddrLiteral)) :=
  partialDecoderLoop upper_range lower_range max (List.replicate (floorLog2 max) true)

/-- One statement `result((g_q * i) + j) <= col(i) and row(j);` of the printed
generate loops. -/
structure GridAssign where
  target : Nat
  col : Nat
  row : Nat
  deriving DecidableEq, Repr

/-- What `genDecoder` prints after `begin`. -/
structure DecoderModule where
  col : List (Nat × List AddrLiteral)
  row : List (Nat × List AddrLiteral)
  grid : List GridAssign
  deriving DecidableEq, Repr

/-- The statements the printed loops `for i in g_k - 1 downto 0 generate`,
`for j in g_q - 1 downto 0 generate` stand for (lines 466-470). -/
def generateGrid (n : Nat) : List GridAssign :=
  (List.range (k n)).reverse.flatMap fun i =>
    (List.range (q n)).reverse.map fun j => { target := q n * i + j, col := i, row := j }

/-- Source: `genDecoder`. -/
def genDecoder (n : Nat) : Option DecoderModule :=
  (genPartialDecoder (k n) ((log2n n : Int) - 1) (log2q n)).bind fun col =>
    (genPartialDecoder (q n) ((log2q n : Int) - 1) 0).map fun row =>
      { col := col, row := row, grid := generateGrid n }

/-- Value of one factor for the given input bits. -/
def evalLiteral (input : Int → Bool) (l : AddrLiteral) : Bool :=
  if l.negated then !(input l.index) else input l.index

/-- Value of `name(i)` of a partial decoder: the conjunction assigned to
position `i`.  A position without assignment reads as `false`. -/
def evalPartialDecoder (rows : List (Nat × List AddrLiteral)) (input : Int → Bool)
    (i : Nat) : Bool :=
  match rows.find? (fun r => r.1 = i) with
  | some (_, conj) => conj.all (evalLiteral input)
  | none => false

/-- Value of `result(p)` of the printed decoder, `none` when no statement
assigns position `p`. -/
def evalDecoder (md : DecoderModule) (input : Int → Bool) (p : Nat) : Option Bool :=
  (md.grid.find? (fun g => g.target = p)).map fun g =>
    evalPartialDecoder md.col input g.col && evalPartialDecoder md.row input g.row

/-- The bits of the number `v` as the decoder's `input` port. -/
def inputBits (v : Nat) : Int → Bool :=
  fun j => decide (0 ≤ j) && v.testBit j.toNat

/-! ## Multiplier (source lines 514-682) -/

/-- Source: `const int m = n;`, the multiplicand length. -/
def m (n : Nat) : Nat := n

/-- The value a signed 32-bit `int` holds for the arithmetic result `x`: `x`
itself when it is in range, `x` wrapped around in two's complement otherwise
(the overflow is undefined in C++; the wrapped value is what the compiled
generator prints). -/
def wrapInt32 (x : Int) : Int := (x + 2147483648) % 4294967296 - 2147483648

/-- A component the printed module refers to by name: the name is `base`
followed by the `int` value `size` in decimal, as in `"component CLA" << n + m`. -/
structure ComponentRef where
  base : String
  size : Int
  deriving DecidableEq, Repr

/-- The name as printed. -/
def ComponentRef.printed (c : ComponentRef) : String := c.base ++ toString c.size

/-- Source: `int claSize = std::max(n, m) * 2;` (line 635), a 32-bit `int`. -/
def claSize (n : Nat) : Int := wrapInt32 (((max n (m n) : Nat) : Int) * 2)

/-- The component references `genAlgorithm` prints: the component declarations
(lines 569-607) and the instantiations with their labels (lines 636-649). -/
structure AlgorithmModule where
  components : List ComponentRef
  instances : List (String × ComponentRef)
  deriving DecidableEq, Repr

/-- Source: `genAlgorithm`, as far as component references go; the clocked
process it prints is `step` below.  The adder is declared with the `int` sum
`n + m` (line 600) and instantiated with `claSize` (line 641). -/
def genAlgorithm (n : Nat) : AlgorithmModule :=
  { components :=
      [⟨"priority_encoder_", n⟩, ⟨"barrel_shifter_", n⟩, ⟨"decoder_", n⟩,
        ⟨"CLA", wrapInt32 ((n : Int) + (m n : Int))⟩]
    instances :=
      [("encoder", ⟨"priority_encoder_", n⟩), ("decoder", ⟨"decoder_", n⟩),
        ("shifter", ⟨"barrel_shifter_", n⟩), ("adder", ⟨"CLA", claSize n⟩)] }

/-- The registers driven by the clocked process. -/
structure MultState where
  mr_reg : Nat
  prod_reg : Nat
  active : Bool
  done : Bool
  deriving DecidableEq, Repr

/-- The input ports sampled at a clock edge. -/
structure MultInputs where
  reset : Bool
  start : Bool
  mr : Nat
  md : Nat
  deriving DecidableEq, Repr

/-- An ideal priority encoder: the index of the most significant set bit. -/
def idealEncoder (x : Nat) : Nat := floorLog2 x

/-- An ideal one-hot decoder: only bit `i` set. -/
def idealDecoder (i : Nat) : Nat := 2 ^ i

/-- An ideal barrel shifter: `input` shifted left by `shamt`. -/
def idealShifter (input shamt : Nat) : Nat := input * 2 ^ shamt

/-- Modelled from the spec: the external carry-lookahead adder, which the
generator only refers to by name; an ideal adder on `width` bits, carry-in 0. -/
def idealAdder (width a b : Nat) : Nat := (a + b) % 2 ^ width

/-- One clock edge of the process printed by `genAlgorithm` (lines 651-676);
`hw_done`, `xor_output` and `adder_output` are the printed concurrent
assignments, taken at their value before the edge. -/
def step (n m : Nat) (s : MultState) (i : MultInputs) : MultState :=
  let encoder_output := idealEncoder s.mr_reg
  let decoder_output := idealDecoder encoder_output
  let shifter_output := idealShifter i.md encoder_output
  let adder_output := idealAdder (n + m) s.prod_reg shifter_output
  let xor_output := s.mr_reg ^^^ decoder_output
  let hw_done := decide (s.mr_reg = 0)
  if i.reset then
    { s with mr_reg := 2 ^ n - 1, prod_reg := 0, done := false }
  else if i.start && !s.active then
    { mr_reg := i.mr, prod_reg := 0, active := true, done := hw_done }
  else if s.active && !hw_done then
    { s with mr_reg := xor_output, prod_reg := adder_output, done := hw_done }
  else
    { s with done := hw_done }

/-- The state after a sequence of clock edges. -/
def run (n m : Nat) (s : MultState) (inputs : List MultInputs) : MultState :=
  inputs.foldl (step n m) s

/-- Recursion behind `popcount`. -/
def popcountAux : Nat → Nat → Nat
  | 0, _ => 0
  | fuel + 1, x => x % 2 + popcountAux fuel (x / 2)

/-- Number of set bits of `x`. -/
def popcount (x : Nat) : Nat := popcountAux x x

/-! ## Size parameters -/

theorem floorLog2Aux_eq (fuel x : Nat) (h : x ≤ fuel) : floorLog2Aux fuel x = Nat.log 2 x := by
  induction fuel generalizing x with
  | zero =>
    have : x = 0 := by omega
    subst this; simp [floorLog2Aux]
  | succ f ih =>
    unfold floorLog2Aux
    split
    · rw [Nat.log_of_lt (by assumption)]
    · rw [ih (x / 2) (by omega)]
      rw [Nat.log_div_base]
      have : 1 ≤ Nat.log 2 x := Nat.log_pos (by norm_num) (by omega)
      omega

theorem floorLog2_eq (x : Nat) : floorLog2 x = Nat.log 2 x := floorLog2Aux_eq x x le_rfl

theorem floorLog2_two_pow (e : Nat) : floorLog2 (2 ^ e) = e := by
  rw [floorLog2_eq, Nat.log_pow (by norm_num)]

theorem ceilLog2Aux_eq (fuel c x : Nat) (hlow : c ≤ Nat.clog 2 x) (h : x ≤ fuel + 2 ^ c) :
    ceilLog2Aux fuel c x = Nat.clog 2 x := by
  induction fuel generalizing c with
  | zero =>
    simp only [ceilLog2Aux]
    have : Nat.clog 2 x ≤ c := (Nat.le_pow_iff_clog_le (by norm_num)).mp (by simpa using h)
    omega
  | succ f ih =>
    unfold ceilLog2Aux
    split
    · rename_i hx
      have : Nat.clog 2 x ≤ c := (Nat.le_pow_iff_clog_le (by norm_num)).mp hx
      omega
    · rename_i hx
      apply ih
      · exact (Nat.pow_lt_iff_lt_clog (by norm_num)).mp (by omega)
      · have h1 : 2 ^ (c + 1) = 2 * 2 ^ c := by ring
        have h2 : 0 < 2 ^ c := Nat.pos_pow_of_pos c (by norm_num)
        omega

theorem ceilLog2_eq (x : Nat) : ceilLog2 x = Nat.clog 2 x :=
  ceilLog2Aux_eq x 0 x (Nat.zero_le _) (by omega)

theorem floorSqrtAux_eq (fuel s x : Nat) (hs : s * s ≤ x) (h : x ≤ fuel + s) :
    floorSqrtAux fuel s x = Nat.sqrt x := by
  induction fuel generalizing s with
  | zero =>
    simp only [floorSqrtAux]
    apply le_antisymm
    · exact Nat.le_sqrt.mpr hs
    · exact le_trans (Nat.sqrt_le_self x) (by omega)
  | succ f ih =>
    unfold floorSqrtAux
    split
    · rename_i hx
      exact ih (s + 1) hx (by omega)
    · rename_i hx
      apply le_antisymm
      · exact Nat.le_sqrt.mpr hs
      · have : Nat.sqrt x < s + 1 := Nat.sqrt_lt.mpr (by omega)
        omega

theorem floorSqrt_eq (x : Nat) : floorSqrt x = Nat.sqrt x :=
  floorSqrtAux_eq x 0 x (by omega) (by omega)

/-- The defining property of the rounded-up square root. -/
theorem ceilSqrt_le_iff (n x : Nat) : ceilSqrt n ≤ x ↔ n ≤ x * x := by
  unfold ceilSqrt
  rw [floorSqrt_eq]
  have h1 : Nat.sqrt n * Nat.sqrt n ≤ n := Nat.sqrt_le n
  have h2 : n < (Nat.sqrt n + 1) * (Nat.sqrt n + 1) := Nat.lt_succ_sqrt n
  split
  · rename_i heq
    constructor
    · intro h
      calc n = Nat.sqrt n * Nat.sqrt n := heq.symm
        _ ≤ x * x := Nat.mul_le_mul h h
    · intro h
      exact Nat.sqrt_le_sqrt h |>.trans (by rw [Nat.sqrt_eq])
  · rename_i hne
    constructor
    · intro h
      have : (Nat.sqrt n + 1) * (Nat.sqrt n + 1) ≤ x * x := Nat.mul_le_mul h h
      omega
    · intro h
      by_contra hx
      have hx' : x ≤ Nat.sqrt n := by omega
      have : x * x ≤ Nat.sqrt n * Nat.sqrt n := Nat.mul_le_mul hx' hx'
      omega

/-- The exponent of `q`: the least `c` with `n ≤ 2 ^ c * 2 ^ c`. -/
theorem ceilLog2_ceilSqrt_le_iff (n c : Nat) :
    ceilLog2 (ceilSqrt n) ≤ c ↔ n ≤ 2 ^ c * 2 ^ c := by
  rw [ceilLog2_eq, ← Nat.le_pow_iff_clog_le (by norm_num), ceilSqrt_le_iff]

theorem ceilLog2_ceilSqrt_two_pow (e : Nat) : ceilLog2 (ceilSqrt (2 ^ e)) = (e + 1) / 2 := by
  have key : ∀ c, ceilLog2 (ceilSqrt (2 ^ e)) ≤ c ↔ e ≤ 2 * c := by
    intro c
    rw [ceilLog2_ceilSqrt_le_iff, ← pow_add, Nat.pow_le_pow_iff_right (by norm_num)]
    omega
  apply le_antisymm
  · exact (key _).mpr (by omega)
  · have := (key _).mp le_rfl
    omega

theorem q_two_pow (e : Nat) : q (2 ^ e) = 2 ^ ((e + 1) / 2) := by
  unfold q
  rw [ceilLog2_ceilSqrt_two_pow]

theorem k_two_pow (e : Nat) : k (2 ^ e) = 2 ^ (e / 2) := by
  unfold k
  rw [q_two_pow, Nat.pow_div (by omega) (by norm_num)]
  congr 1
  omega

theorem log2n_two_pow (e : Nat) : log2n (2 ^ e) = e := floorLog2_two_pow e

theorem log2q_two_pow (e : Nat) : log2q (2 ^ e) = (e + 1) / 2 := by
  unfold log2q
  rw [q_two_pow, floorLog2_two_pow]

theorem log2k_two_pow (e : Nat) : log2k (2 ^ e) = e / 2 := by
  unfold log2k
  rw [k_two_pow, floorLog2_two_pow]

theorem q_mul_k_two_pow (e : Nat) : q (2 ^ e) * k (2 ^ e) = 2 ^ e := by
  rw [q_two_pow, k_two_pow, ← pow_add]
  congr 1
  omega

/-- `q = k` exactly for the powers of four. -/
theorem q_eq_k_two_pow_iff (e : Nat) : q (2 ^ e) = k (2 ^ e) ↔ ∃ j, 2 ^ e = 4 ^ j := by
  rw [q_two_pow, k_two_pow]
  have h2 : (4 : Nat) = 2 ^ 2 := by norm_num
  constructor
  · intro h
    have h1 : (e + 1) / 2 = e / 2 := Nat.pow_right_injective (le_refl 2) h
    refine ⟨e / 2, ?_⟩
    rw [h2, ← pow_mul]
    congr 1
    omega
  · rintro ⟨j, hj⟩
    rw [h2, ← pow_mul] at hj
    have h1 : e = 2 * j := Nat.pow_right_injective (le_refl 2) hj
    congr 1
    omega

theorem two_le_of_four_le_two_pow (e : Nat) (h : 4 ≤ 2 ^ e) : 2 ≤ e := by
  by_contra hc
  have : e = 0 ∨ e = 1 := by omega
  rcases this with h0 | h0 <;> subst h0 <;> simp at h

/-- The integer model of `ceil(log2(sqrt(n)))` agrees with the expression over
the real numbers. -/
theorem ceilLog2_ceilSqrt_eq_real (n : Nat) (hn : 1 ≤ n) :
    ceilLog2 (ceilSqrt n) = ⌈Real.logb 2 (Real.sqrt n)⌉₊ := by
  have hpos : (0 : ℝ) < Real.sqrt n := Real.sqrt_pos.mpr (by exact_mod_cast hn)
  have key : ∀ c : Nat, ⌈Real.logb 2 (Real.sqrt n)⌉₊ ≤ c ↔ ceilLog2 (ceilSqrt n) ≤ c := by
    intro c
    rw [Nat.ceil_le, Real.logb_le_iff_le_rpow (by norm_num) hpos, Real.rpow_natCast,
      Real.sqrt_le_left (by positivity), ceilLog2_ceilSqrt_le_iff, ← pow_two]
    exact_mod_cast Iff.rfl
  exact le_antisymm ((key _).mp le_rfl) ((key _).mpr le_rfl)

/-- The integer model of `log2(x)` stored in an `int` agrees with the integer
part of the logarithm over the real numbers. -/
theorem floorLog2_eq_real (x : Nat) (hx : 1 ≤ x) : floorLog2 x = ⌊Real.logb 2 x⌋₊ := by
  have hpos : (0 : ℝ) < x := by exact_mod_cast hx
  have key : ∀ c : Nat, c ≤ ⌊Real.logb 2 x⌋₊ ↔ c ≤ floorLog2 x := by
    intro c
    rw [floorLog2_eq, Nat.le_floor_iff (Real.logb_nonneg (by norm_num) (by exact_mod_cast hx)),
      Real.le_logb_iff_rpow_le (by norm_num) hpos, Real.rpow_natCast,
      ← Nat.pow_le_iff_le_log (by norm_num) (by omega)]
    exact_mod_cast Iff.rfl
  exact le_antisymm ((key _).mpr le_rfl) ((key _).mp le_rfl)

/-! ## Bit vector utility -/

theorem isEmpty_eq_true_iff (bv : List Bool) : isEmpty bv = true ↔ ∀ b ∈ bv, b = false := by
  induction bv with
  | nil => simp [isEmpty]
  | cons b rest ih =>
    cases b <;> simp [isEmpty, ih]

theorem isEmpty_replicate_false (L : Nat) : isEmpty (List.replicate L false) = true := by
  rw [isEmpty_eq_true_iff]
  intro b hb
  exact (List.mem_replicate.mp hb).2

theorem length_fillOnes (bv : List Bool) (i : Nat) : (fillOnes bv i).length = bv.length := by
  induction i generalizing bv with
  | zero => rfl
  | succ i ih => simp [fillOnes, ih]

theorem getElem?_fillOnes (bv : List Bool) (i j : Nat) (hi : i ≤ bv.length) :
    (fillOnes bv i)[j]? = if j < i then some true else bv[j]? := by
  induction i generalizing bv with
  | zero => simp [fillOnes]
  | succ i ih =>
    simp only [fillOnes]
    rw [ih _ (by simp; omega)]
    by_cases h1 : j < i
    · simp [h1, Nat.lt_succ_of_lt h1]
    · by_cases h2 : j = i
      · subst h2
        simp [List.getElem?_set]
        omega
      · have h3 : ¬ j < i + 1 := by omega
        simp [h1, h3, List.getElem?_set]
        intro h; omega

theorem borrow_eq (bv : List Bool) (i : Nat) (hi : bv[i]? = some true) (fuel j : Nat)
    (hj : j ≤ i) (hfuel : i < j + fuel) (hlow : ∀ t : Nat, j ≤ t → t < i → bv[t]? = some false) :
    borrow bv fuel j = fillOnes (bv.set i false) i := by
  have hlen : i < bv.length := by
    by_contra hc
    rw [List.getElem?_eq_none (by omega)] at hi
    exact Option.noConfusion hi
  induction fuel generalizing j with
  | zero => omega
  | succ f ih =>
    unfold borrow
    have hjl : j < bv.length := by omega
    rw [dif_pos hjl]
    by_cases hji : j = i
    · subst hji
      rw [List.getElem?_eq_getElem hjl] at hi
      rw [if_pos (Option.some.inj hi)]
    · have h1 := hlow j le_rfl (by omega)
      rw [List.getElem?_eq_getElem hjl] at h1
      have h2 : bv[j] = false := Option.some.inj h1
      rw [if_neg (by simp [h2])]
      exact ih (j + 1) (by omega) (by omega) (fun t ht1 ht2 => hlow t (by omega) ht2)

/-- What `decrement` does at each index of a vector whose lowest set digit is
at index `i`. -/
theorem decrement_pointwise (bv : List Bool) (i : Nat) (hi : bv[i]? = some true)
    (hlow : ∀ t : Nat, t < i → bv[t]? = some false) :
    (decrement bv).length = bv.length ∧
      ∀ j : Nat, (decrement bv)[j]? =
        if j < i then some true else if j = i then some false else bv[j]? := by
  have hlen : i < bv.length := by
    by_contra hc
    rw [List.getElem?_eq_none (by omega)] at hi
    exact Option.noConfusion hi
  have hne : isEmpty bv = false := by
    cases h : isEmpty bv with
    | false => rfl
    | true =>
      have := (isEmpty_eq_true_iff bv).mp h true (List.getElem?_mem hi)
      exact Bool.noConfusion this
  have hfill : (fillOnes (bv.set i false) i).length = bv.length ∧
      ∀ j : Nat, (fillOnes (bv.set i false) i)[j]? =
        if j < i then some true else if j = i then some false else bv[j]? := by
    refine ⟨by simp [length_fillOnes], fun j => ?_⟩
    rw [getElem?_fillOnes _ _ _ (by simp; omega)]
    by_cases h1 : j < i
    · simp [h1]
    · by_cases h2 : j = i
      · subst h2
        simp [List.getElem?_set, hlen]
      · simp only [h1, h2, if_false]
        rw [List.getElem?_set]
        simp [Ne.symm h2]
  unfold decrement
  rw [hne]
  simp only [Bool.false_eq_true, if_false]
  by_cases h0 : bv[0]? = some true
  · rw [if_pos h0]
    have hi0 : i = 0 := by
      by_contra hc
      have := hlow 0 (by omega)
      rw [this] at h0
      simp at h0
    subst hi0
    simpa [fillOnes] using hfill
  · rw [if_neg h0]
    have hi0 : 0 < i := by
      by_contra hc
      have : i = 0 := by omega
      subst this
      exact h0 hi
    rw [borrow_eq bv i hi (bv.length - 1) 1 (by omega) (by omega)
      (fun t _ ht => hlow t ht)]
    exact hfill

/-- A vector that is not all-false has a lowest set digit. -/
theorem exists_lowest_set (bv : List Bool) (h : true ∈ bv) :
    ∃ i, bv[i]? = some true ∧ ∀ t : Nat, t < i → bv[t]? = some false := by
  induction bv with
  | nil => simp at h
  | cons b rest ih =>
    cases b with
    | true => exact ⟨0, by simp, by intro t ht; omega⟩
    | false =>
      have h' : true ∈ rest := by simpa using h
      obtain ⟨i, hi, hlow⟩ := ih h'
      refine ⟨i + 1, by simpa using hi, ?_⟩
      intro t ht
      cases t with
      | zero => simp
      | succ t => simpa using hlow t (by omega)

/-- Value of a vector in terms of the lowest set digit. -/
theorem bvValue_pointwise (bv bv' : List Bool) (i : Nat) (hlen : bv'.length = bv.length)
    (hi : bv[i]? = some true) (hlow : ∀ t : Nat, t < i → bv[t]? = some false)
    (h' : ∀ j : Nat, bv'[j]? = if j < i then some true else if j = i then some false else bv[j]?) :
    bvValue bv' + 1 = bvValue bv := by
  induction i generalizing bv bv' with
  | zero =>
    match bv, bv' with
    | [], _ => simp at hi
    | _ :: _, [] => simp at hlen
    | b :: rest, b' :: rest' =>
      have hb : b = true := by simpa using hi
      have hb' : b' = false := by simpa using h' 0
      have hrest : rest' = rest := by
        apply List.ext_getElem?
        intro j
        simpa using h' (j + 1)
      subst hb hb' hrest
      simp [bvValue]
      omega
  | succ i ih =>
    match bv, bv' with
    | [], _ => simp at hi
    | _ :: _, [] => simp at hlen
    | b :: rest, b' :: rest' =>
      have hb : b = false := by simpa using hlow 0 (by omega)
      have hb' : b' = true := by simpa using h' 0
      have hrec := ih rest rest' (by simpa using hlen) (by simpa using hi)
        (fun t ht => by simpa using hlow (t + 1) (by omega))
        (fun j => by simpa using h' (j + 1))
      subst hb hb'
      simp [bvValue]
      omega

/-! ## Binary literals -/

theorem foldl_literal (s : List Char) (acc : Nat) :
    s.foldl (fun acc c => 2 * acc + (if c = '1' then 1 else 0)) acc =
      acc * 2 ^ s.length + binaryLiteralValue s := by
  unfold binaryLiteralValue
  induction s generalizing acc with
  | nil => simp
  | cons c rest ih =>
    simp only [List.foldl_cons, List.length_cons]
    rw [ih (2 * acc + _), ih (2 * 0 + _)]
    ring

theorem binaryLiteralValue_append (a b : List Char) :
    binaryLiteralValue (a ++ b) = binaryLiteralValue a * 2 ^ b.length + binaryLiteralValue b := by
  have h := foldl_literal b (binaryLiteralValue a)
  unfold binaryLiteralValue at h ⊢
  rw [List.foldl_append, h]

theorem binaryLiteralValue_zeros (b : Nat) : binaryLiteralValue (List.replicate b '0') = 0 := by
  induction b with
  | zero => rfl
  | succ b ih =>
    rw [List.replicate_succ]
    have h := binaryLiteralValue_append ['0'] (List.replicate b '0')
    simp only [List.singleton_append] at h
    rw [h, ih]
    simp [binaryLiteralValue]

/-- The loop of `intToBinaryString` keeps `value(str) + i` fixed while the last
`b` characters, which cover the digits of `i`, are still `'0'`. -/
theorem intToBinaryStringLoop_spec (size fuel i b : Nat) (pre : List Char)
    (hfuel : i ≤ fuel) (hb : i < 2 ^ b) (hsize : pre.length + b = size) :
    ∃ s, intToBinaryStringLoop size fuel i (pre ++ List.replicate b '0') = some s ∧
      s.length = size ∧ binaryLiteralValue s = binaryLiteralValue pre * 2 ^ b + i := by
  induction fuel generalizing i b pre with
  | zero =>
    have : i = 0 := by omega
    subst this
    refine ⟨_, rfl, by simp [hsize], ?_⟩
    rw [binaryLiteralValue_append, binaryLiteralValue_zeros]
    simp
  | succ f ih =>
    cases i with
    | zero =>
      refine ⟨_, rfl, by simp [hsize], ?_⟩
      rw [binaryLiteralValue_append, binaryLiteralValue_zeros]
      simp
    | succ i =>
      simp only [intToBinaryStringLoop]
      rw [floorLog2_eq]
      set j := Nat.log 2 (i + 1) with hj
      have hjb : j < b := (Nat.lt_pow_iff_log_lt (by norm_num) (by omega)).mp hb
      have hpow : 2 ^ j ≤ i + 1 := Nat.pow_log_le_self 2 (by omega)
      have hlt : i + 1 < 2 ^ (j + 1) := Nat.lt_pow_succ_log_self (by norm_num) (i + 1)
      have hpos : 0 < 2 ^ j := Nat.pos_pow_of_pos j (by norm_num)
      have hsplit : List.replicate b '0' =
          List.replicate (b - j - 1) '0' ++ '0' :: List.replicate j '0' := by
        have : b = (b - j - 1) + (j + 1) := by omega
        conv_lhs => rw [this]
        rw [List.replicate_add, List.replicate_succ]
      have hset : (pre ++ List.replicate b '0').set (size - j - 1) '1' =
          (pre ++ List.replicate (b - j - 1) '0' ++ ['1']) ++ List.replicate j '0' := by
        rw [hsplit]
        have hidx : size - j - 1 = (pre ++ List.replicate (b - j - 1) '0').length := by
          simp; omega
        rw [← List.append_assoc, hidx, List.set_append_right _ _ (le_refl _)]
        simp
      rw [hset]
      obtain ⟨s, hs, hlen, hval⟩ := ih (i + 1 - 2 ^ j) j
        (pre ++ List.replicate (b - j - 1) '0' ++ ['1']) (by omega)
        (by rw [pow_succ] at hlt; omega) (by simp; omega)
      refine ⟨s, hs, hlen, ?_⟩
      rw [hval, binaryLiteralValue_append, binaryLiteralValue_append, binaryLiteralValue_zeros]
      have h1 : binaryLiteralValue ['1'] = 1 := by simp [binaryLiteralValue]
      rw [h1]
      simp only [List.length_singleton, List.length_replicate]
      have h2 : 2 ^ b = 2 ^ (b - j - 1) * 2 ^ 1 * 2 ^ j := by
        rw [← pow_add, ← pow_add]
        congr 1
        omega
      rw [h2]
      have h3 : (binaryLiteralValue pre * 2 ^ (b - j - 1) + 0) * 2 ^ 1 + 1 =
          binaryLiteralValue pre * 2 ^ (b - j - 1) * 2 ^ 1 + 1 := by ring
      rw [h3, Nat.add_mul, Nat.one_mul]
      have h4 : binaryLiteralValue pre * (2 ^ (b - j - 1) * 2 ^ 1 * 2 ^ j) =
          binaryLiteralValue pre * 2 ^ (b - j - 1) * 2 ^ 1 * 2 ^ j := by ring
      rw [h4]
      omega

/-- For `i ≥ 1` the conversion returns a literal of `floor(log2 i) + 1`
characters that denotes `i`. -/
theorem intToBinaryString_spec (i : Nat) (hi : 1 ≤ i) :
    ∃ s, intToBinaryString i = some s ∧ s.length = floorLog2 i + 1 ∧
      binaryLiteralValue s = i := by
  unfold intToBinaryString
  rw [if_neg (by omega)]
  have hb : i < 2 ^ (floorLog2 i + 1) := by
    rw [floorLog2_eq]
    exact Nat.lt_pow_succ_log_self (by norm_num) i
  obtain ⟨s, hs, hlen, hval⟩ :=
    intToBinaryStringLoop_spec (floorLog2 i + 1) i i (floorLog2 i + 1) [] le_rfl hb (by simp)
  refine ⟨s, by simpa using hs, hlen, ?_⟩
  rw [hval]
  simp [binaryLiteralValue]

/-! ## Priority encoder -/

theorem isMsbIndex_unique (w : Nat) (f : Nat → Bool) (r s : Nat)
    (hr : IsMsbIndex w f r) (hs : IsMsbIndex w f s) : r = s := by
  obtain ⟨hr1, hr2, hr3⟩ := hr
  obtain ⟨hs1, hs2, hs3⟩ := hs
  rcases Nat.lt_trichotomy r s with h | h | h
  · have := hr3 s h hs1
    rw [hs2] at this
    exact Bool.noConfusion this
  · exact h
  · have := hs3 r h hr1
    rw [hr2] at this
    exact Bool.noConfusion this

/-- The reference encoder meets the assumption made on the sub-encoders. -/
theorem msbIndex_spec (w : Nat) (f : Nat → Bool) (h : ∃ i, i < w ∧ f i = true) :
    IsMsbIndex w f (msbIndex w f) := by
  induction w with
  | zero =>
    obtain ⟨i, hi, _⟩ := h
    omega
  | succ w ih =>
    unfold msbIndex
    by_cases hw : f w = true
    · rw [if_pos hw]
      exact ⟨by omega, hw, fun j h1 h2 => by omega⟩
    · rw [if_neg hw]
      obtain ⟨i, hi, hfi⟩ := h
      have hiw : i ≠ w := by
        intro heq
        subst heq
        exact hw hfi
      obtain ⟨h1, h2, h3⟩ := ih ⟨i, by omega, hfi⟩
      refine ⟨by omega, h2, fun j hj1 hj2 => ?_⟩
      by_cases hjw : j = w
      · subst hjw
        simpa using hw
      · exact h3 j hj1 (by omega)

theorem selectionLoop_isSome (n i : Nat) : ∃ sel, selectionLoop n i = some sel := by
  induction i with
  | zero => exact ⟨[], rfl⟩
  | succ i ih =>
    obtain ⟨rest, hrest⟩ := ih
    unfold selectionLoop
    by_cases h1 : i + 1 > 1
    · obtain ⟨s, hs, _, _⟩ := intToBinaryString_spec i (by omega)
      simp only [h1, if_true, hs, hrest, Option.some_bind, Option.map_some']
      exact ⟨_, rfl⟩
    · simp only [h1, if_false, hrest, Option.map_some']
      exact ⟨_, rfl⟩

theorem genEncoder_eq (n : Nat) :
    ∃ sel, selectionLoop n (k n) = some sel ∧
      genEncoder n = some
        { components := encoderComponents n
          sliceOr := encoderSliceOr n
          coarseEncoder := k n
          selection := sel
          fineEncoder := q n } := by
  obtain ⟨sel, hsel⟩ := selectionLoop_isSome n (k n)
  exact ⟨sel, hsel, by simp [genEncoder, hsel]⟩

theorem sliceOrLoop_find (n i g : Nat) :
    (sliceOrLoop n i).find? (fun a => a.1 = g) =
      if 1 ≤ g ∧ g ≤ i then some (g, SliceRhs.orOf (orPositions n g)) else none := by
  induction i with
  | zero =>
    have : ¬ (1 ≤ g ∧ g ≤ 0) := by omega
    rw [if_neg this]
    rfl
  | succ i ih =>
    unfold sliceOrLoop
    by_cases hg : i + 1 = g
    · subst hg
      simp
    · rw [List.find?_cons_of_neg _ (by simpa using hg), ih]
      by_cases h1 : 1 ≤ g ∧ g ≤ i
      · have h2 : 1 ≤ g ∧ g ≤ i + 1 := by omega
        rw [if_pos h1, if_pos h2]
      · have h2 : ¬ (1 ≤ g ∧ g ≤ i + 1) := by omega
        rw [if_neg h1, if_neg h2]

theorem any_orPositions (n g : Nat) (input : Nat → Bool) :
    (orPositions n g).any input = true ↔
      ∃ p, q n * g ≤ p ∧ p < q n * (g + 1) ∧ input p = true := by
  unfold orPositions
  rw [List.any_eq_true]
  constructor
  · rintro ⟨p, hp, hin⟩
    rw [List.mem_map] at hp
    obtain ⟨t, ht, rfl⟩ := hp
    rw [List.mem_range] at ht
    have : q n * (g + 1) = q n * g + q n := by ring
    exact ⟨_, by omega, by omega, hin⟩
  · rintro ⟨p, h1, h2, hin⟩
    have hmul : q n * (g + 1) = q n * g + q n := by ring
    refine ⟨p, ?_, hin⟩
    rw [List.mem_map]
    refine ⟨q n * (g + 1) - 1 - p, ?_, ?_⟩
    · rw [List.mem_range]
      omega
    · omega

/-- Value of `slice_or(g)` in the printed module: the constant for group 0, the
OR over the `q` bits of group `g` for `1 ≤ g < k`. -/
theorem evalSliceOr_encoder (n g : Nat) (input : Nat → Bool) :
    evalSliceOr (encoderSliceOr n) input g =
      if g = 0 then true
      else if g ≤ k n - 1 then (orPositions n g).any input
      else false := by
  unfold evalSliceOr encoderSliceOr
  rw [List.find?_append, sliceOrLoop_find]
  by_cases h0 : g = 0
  · subst h0
    simp
  · by_cases h1 : g ≤ k n - 1
    · have h2 : 1 ≤ g ∧ g ≤ k n - 1 := by omega
      simp [h0, h1, h2]
    · have h2 : ¬ (1 ≤ g ∧ g ≤ k n - 1) := by omega
      have h3 : ¬ (0 = g) := fun h => h0 h.symm
      simp [h0, h1, h2, h3]

/-- The selection chain hands group `g` to the fine encoder when `c_output`
is `g`. -/
theorem evalSelection_loop (n : Nat) (input : Nat → Bool) (i g : Nat) (sel : List SelBranch)
    (hsel : selectionLoop n i = some sel) (hg : g < i) :
    evalSelection input g sel = some (inputSlice input (q n * (g + 1) - 1) (q n * g)) := by
  induction i generalizing sel with
  | zero => omega
  | succ i ih =>
    obtain ⟨rest, hrest⟩ := selectionLoop_isSome n i
    unfold selectionLoop at hsel
    by_cases h1 : i + 1 > 1
    · obtain ⟨s, hs, _, hval⟩ := intToBinaryString_spec i (by omega)
      simp only [h1, if_true, hs, hrest, Option.some_bind, Option.map_some',
        Option.some.injEq] at hsel
      subst hsel
      simp only [evalSelection, hval]
      by_cases hgi : g = i
      · subst hgi
        simp
      · rw [if_neg hgi]
        exact ih rest hrest (by omega)
    · simp only [h1, if_false, hrest, Option.map_some', Option.some.injEq] at hsel
      subst hsel
      have hi0 : i = 0 := by omega
      have hg0 : g = 0 := by omega
      subst hi0 hg0
      simp [evalSelection]

/-! ## Barrel shifter -/

theorem fineLoop_amounts (n i : Nat) :
    (fineLoop n i).map (fun b => b.amount) = (List.range' 1 i).reverse := by
  induction i with
  | zero => rfl
  | succ i ih =>
    simp only [fineLoop, List.map_cons, ih, List.range'_concat, List.reverse_append,
      List.reverse_singleton, List.singleton_append]
    congr 1
    omega

theorem coarseLoop_amounts (n i : Nat) :
    (coarseLoop n i).map (fun b => b.amount) = (List.range' 1 i).reverse := by
  induction i with
  | zero => rfl
  | succ i ih =>
    simp only [coarseLoop, List.map_cons, ih, List.range'_concat, List.reverse_append,
      List.reverse_singleton, List.singleton_append]
    congr 1
    omega

theorem mem_reverse_range'_one (i a : Nat) :
    a ∈ (List.range' 1 i).reverse ↔ 1 ≤ a ∧ a ≤ i := by
  rw [List.mem_reverse, List.mem_range'_1]
  omega

theorem nodup_reverse_range'_one (i : Nat) : ((List.range' 1 i).reverse).Nodup :=
  List.nodup_reverse.mpr (List.nodup_range' 1 i)

theorem fineLoop_find (n i a : Nat) :
    (fineLoop n i).find? (fun b => b.amount = a) =
      if 1 ≤ a ∧ a ≤ i then
        some
          { expr := (if (q n - 1) - a > 0 then [Piece.zeros ((q n - 1) - a)] else [])
              ++ [Piece.input, Piece.zeros a]
            amount := a }
      else none := by
  induction i with
  | zero =>
    have : ¬ (1 ≤ a ∧ a ≤ 0) := by omega
    rw [if_neg this]
    rfl
  | succ i ih =>
    unfold fineLoop
    by_cases ha : i + 1 = a
    · subst ha
      simp
    · rw [List.find?_cons_of_neg _ (by simpa using ha), ih]
      by_cases h1 : 1 ≤ a ∧ a ≤ i
      · have h2 : 1 ≤ a ∧ a ≤ i + 1 := by omega
        rw [if_pos h1, if_pos h2]
      · have h2 : ¬ (1 ≤ a ∧ a ≤ i + 1) := by omega
        rw [if_neg h1, if_neg h2]

theorem coarseLoop_find (n i a : Nat) :
    (coarseLoop n i).find? (fun b => b.amount = a) =
      if 1 ≤ a ∧ a ≤ i then
        some
          { expr := List.replicate ((k n - 1) - a) Piece.q0s ++ [Piece.fineResult]
              ++ List.replicate a Piece.q0s
            amount := a }
      else none := by
  induction i with
  | zero =>
    have : ¬ (1 ≤ a ∧ a ≤ 0) := by omega
    rw [if_neg this]
    rfl
  | succ i ih =>
    unfold coarseLoop
    by_cases ha : i + 1 = a
    · subst ha
      simp
    · rw [List.find?_cons_of_neg _ (by simpa using ha), ih]
      by_cases h1 : 1 ≤ a ∧ a ≤ i
      · have h2 : 1 ≤ a ∧ a ≤ i + 1 := by omega
        rw [if_pos h1, if_pos h2]
      · have h2 : ¬ (1 ≤ a ∧ a ≤ i + 1) := by omega
        rw [if_neg h1, if_neg h2]

theorem evalConcat_append (env : ShifterEnv) (a b : List Piece) :
    evalConcat env (a ++ b) = evalConcat env a ++ evalConcat env b := by
  simp [evalConcat]

theorem evalConcat_q0s (env : ShifterEnv) (w c : Nat) (h : env.q0s = List.replicate w false) :
    evalConcat env (List.replicate c Piece.q0s) = List.replicate (c * w) false := by
  induction c with
  | zero => simp [evalConcat]
  | succ c ih =>
    rw [List.replicate_succ]
    have h1 : evalConcat env (Piece.q0s :: List.replicate c Piece.q0s) =
        env.q0s ++ evalConcat env (List.replicate c Piece.q0s) := by
      simp [evalConcat, evalPiece]
    rw [h1, ih, h, List.append_replicate_replicate]
    congr 1
    ring

/-- The fine stage puts `a` zeros to the right of the operand and pads to the
left up to `q - 1` zeros in all. -/
theorem fine_stage (n a : Nat) (env : ShifterEnv) (ha : a < q n) :
    evalConcat env (selectBranch (genBarrelShifter n).fine a) =
      List.replicate (q n - 1 - a) false ++ env.input ++ List.replicate a false := by
  unfold selectBranch
  have hbr : (genBarrelShifter n).fine.branches = fineLoop n (q n - 1) := rfl
  have hdf : (genBarrelShifter n).fine.default = [Piece.zeros (q n - 1), Piece.input] := rfl
  rw [hbr, hdf, fineLoop_find]
  by_cases h0 : a = 0
  · subst h0
    simp [evalConcat, evalPiece]
  · have h1 : 1 ≤ a ∧ a ≤ q n - 1 := by omega
    rw [if_pos h1]
    by_cases h2 : q n - 1 - a > 0
    · simp [evalConcat, evalPiece, h2]
    · have h3 : q n - 1 - a = 0 := by omega
      simp [evalConcat, evalPiece, h3]

/-- The coarse stage puts `a` groups of `q` zeros to the right of the fine
result and pads to the left up to `k - 1` groups in all. -/
theorem coarse_stage (n a : Nat) (env : ShifterEnv) (ha : a < k n)
    (hq0s : env.q0s = List.replicate (q n) false) :
    evalConcat env (selectBranch (genBarrelShifter n).coarse a) =
      List.replicate ((k n - 1 - a) * q n) false ++ env.fineResult
        ++ List.replicate (a * q n) false := by
  unfold selectBranch
  have hbr : (genBarrelShifter n).coarse.branches = coarseLoop n (k n - 1) := rfl
  have hdf : (genBarrelShifter n).coarse.default =
      List.replicate (k n - 1) Piece.q0s ++ [Piece.fineResult] := rfl
  rw [hbr, hdf, coarseLoop_find]
  have hfr : evalConcat env [Piece.fineResult] = env.fineResult := by
    simp [evalConcat, evalPiece]
  by_cases h0 : a = 0
  · subst h0
    simp only [show ¬ (1 ≤ 0 ∧ 0 ≤ k n - 1) by omega, if_false]
    rw [evalConcat_append, evalConcat_q0s env (q n) _ hq0s, hfr]
    simp
  · have h1 : 1 ≤ a ∧ a ≤ k n - 1 := by omega
    rw [if_pos h1]
    simp only
    rw [evalConcat_append, evalConcat_append, evalConcat_q0s env (q n) _ hq0s,
      evalConcat_q0s env (q n) _ hq0s, hfr]

theorem foldl_msbValue (bs : List Bool) (acc : Nat) :
    bs.foldl (fun acc b => 2 * acc + b.toNat) acc = acc * 2 ^ bs.length + msbValue bs := by
  unfold msbValue
  induction bs generalizing acc with
  | nil => simp
  | cons b rest ih =>
    simp only [List.foldl_cons, List.length_cons]
    rw [ih (2 * acc + _), ih (2 * 0 + _)]
    ring

theorem msbValue_append (a b : List Bool) :
    msbValue (a ++ b) = msbValue a * 2 ^ b.length + msbValue b := by
  have h := foldl_msbValue b (msbValue a)
  unfold msbValue at h ⊢
  rw [List.foldl_append, h]

theorem msbValue_zeros (c : Nat) : msbValue (List.replicate c false) = 0 := by
  induction c with
  | zero => rfl
  | succ c ih =>
    rw [List.replicate_succ]
    have h := msbValue_append [false] (List.replicate c false)
    simp only [List.singleton_append] at h
    rw [h, ih]
    simp [msbValue]

/-! ## Decoder -/

theorem bvValue_lt (bv : List Bool) : bvValue bv < 2 ^ bv.length := by
  induction bv with
  | nil => simp [bvValue]
  | cons b rest ih =>
    simp only [bvValue, List.length_cons, pow_succ]
    cases b
    · simp only [Bool.toNat_false]
      omega
    · simp only [Bool.toNat_true]
      omega

theorem bvValue_replicate_true (L : Nat) : bvValue (List.replicate L true) + 1 = 2 ^ L := by
  induction L with
  | zero => rfl
  | succ L ih =>
    simp only [List.replicate_succ, bvValue, pow_succ, Bool.toNat_true]
    omega

theorem mem_true_of_bvValue_pos (bv : List Bool) (h : 0 < bvValue bv) : true ∈ bv := by
  induction bv with
  | nil => simp [bvValue] at h
  | cons b rest ih =>
    cases b with
    | true => simp
    | false =>
      simp only [bvValue, Bool.toNat_false, Nat.zero_add] at h
      simp [ih (by omega)]

/-- The digits of a vector are the binary digits of its value. -/
theorem getElem?_eq_testBit_bvValue (bv : List Bool) (idx : Nat) (h : idx < bv.length) :
    bv[idx]? = some ((bvValue bv).testBit idx) := by
  induction bv generalizing idx with
  | nil => simp at h
  | cons b rest ih =>
    cases idx with
    | zero =>
      cases b <;> simp [bvValue, Nat.add_mod]
    | succ idx =>
      have h1 : (bvValue (b :: rest)) / 2 = bvValue rest := by
        simp only [bvValue]
        cases b
        · simp only [Bool.toNat_false]
          omega
        · simp only [Bool.toNat_true]
          omega
      rw [Nat.testBit_succ, h1]
      simpa using ih idx (by simpa using h)

/-- A run of address bits of `v` spells `i` exactly when the corresponding
field of `v` is `i`. -/
theorem testBit_window (v a L i : Nat) (hi : i < 2 ^ L) :
    (∀ idx, idx < L → v.testBit (a + idx) = i.testBit idx) ↔ (v / 2 ^ a) % 2 ^ L = i := by
  constructor
  · intro h
    apply Nat.eq_of_testBit_eq
    intro idx
    rw [Nat.testBit_mod_two_pow, ← Nat.shiftRight_eq_div_pow, Nat.testBit_shiftRight]
    by_cases hidx : idx < L
    · simp [hidx, h idx hidx]
    · have : i < 2 ^ idx :=
        lt_of_lt_of_le hi (Nat.pow_le_pow_right (by norm_num) (by omega))
      simp [hidx, Nat.testBit_lt_two_pow this]
  · intro h idx hidx
    rw [← h, Nat.testBit_mod_two_pow, ← Nat.shiftRight_eq_div_pow, Nat.testBit_shiftRight]
    simp [hidx]

/-- The printed conjunction holds exactly when every address bit equals the
digit of the counter it is paired with. -/
theorem conjunctionLoop_spec (bv : List Bool) (lower_range : Int) (c : Nat)
    (hc : c ≤ bv.length) :
    ∃ conj, conjunctionLoop bv lower_range c = some conj ∧
      ∀ input : Int → Bool, (conj.all (evalLiteral input) = true ↔
        ∀ idx : Nat, idx < c → bv[idx]? = some (input (lower_range + idx))) := by
  induction c with
  | zero => exact ⟨[], rfl, fun input => by simp⟩
  | succ c ih =>
    obtain ⟨rest, hrest, hall⟩ := ih (by omega)
    have hidx : (lower_range + (c : Int) - lower_range).toNat = c := by simp
    have hget : bv[c]? = some bv[c] := List.getElem?_eq_getElem (by omega)
    refine ⟨{ negated := (bv[c] == false), index := lower_range + c } :: rest,
      by simp only [conjunctionLoop, hidx, hget, hrest, Option.some_bind, Option.map_some'],
      fun input => ?_⟩
    rw [List.all_cons, Bool.and_eq_true, hall input]
    have hlit : evalLiteral input { negated := (bv[c] == false), index := lower_range + c } =
        true ↔ bv[c]? = some (input (lower_range + c)) := by
      rw [hget]
      unfold evalLiteral
      cases bv[c] <;> cases input (lower_range + c) <;> simp
    rw [hlit]
    constructor
    · rintro ⟨h1, h2⟩ idx hidx
      by_cases hic : idx = c
      · subst hic
        exact h1
      · exact h2 idx (by omega)
    · intro h
      exact ⟨h c (by omega), fun idx hidx => h idx (by omega)⟩

theorem evalPartialDecoder_cons (i' : Nat) (conj : List AddrLiteral)
    (rest : List (Nat × List AddrLiteral)) (input : Int → Bool) (i : Nat) :
    evalPartialDecoder ((i', conj) :: rest) input i =
      if i' = i then conj.all (evalLiteral input) else evalPartialDecoder rest input i := by
  unfold evalPartialDecoder
  by_cases h : i' = i
  · subst h
    simp
  · rw [List.find?_cons_of_neg _ (by simpa using h), if_neg h]

/-- The rows of a partial decoder: position `i` is driven by the conjunction
that spells the binary digits of `i` on the address bits. -/
theorem partialDecoderLoop_spec (upper_range lower_range : Int) (L : Nat)
    (hL : (upper_range + 1 - lower_range).toNat = L) (cnt : Nat) (bv : List Bool)
    (hlen : bv.length = L) (hval : 0 < cnt → bvValue bv + 1 = cnt) :
    ∃ rows, partialDecoderLoop upper_range lower_range cnt bv = some rows ∧
      ∀ (input : Int → Bool) (i : Nat), i < cnt →
        (evalPartialDecoder rows input i = true ↔
          ∀ idx : Nat, idx < L → input (lower_range + idx) = i.testBit idx) := by
  induction cnt generalizing bv with
  | zero => exact ⟨[], rfl, fun input i hi => by omega⟩
  | succ cnt ih =>
    have hv : bvValue bv = cnt := by
      have := hval (by omega)
      omega
    obtain ⟨conj, hconj, hall⟩ := conjunctionLoop_spec bv lower_range L (by omega)
    have hdec : (decrement bv).length = L ∧ (0 < cnt → bvValue (decrement bv) + 1 = cnt) := by
      by_cases h0 : 0 < cnt
      · have hmem := mem_true_of_bvValue_pos bv (by omega)
        obtain ⟨i, hi, hlow⟩ := exists_lowest_set bv hmem
        obtain ⟨hl, hpt⟩ := decrement_pointwise bv i hi hlow
        have := bvValue_pointwise bv (decrement bv) i hl hi hlow hpt
        exact ⟨by omega, fun _ => by omega⟩
      · have hz : bvValue bv = 0 := by omega
        have hemp : isEmpty bv = true := by
          rw [isEmpty_eq_true_iff]
          intro b hb
          cases b with
          | false => rfl
          | true =>
            exfalso
            obtain ⟨i, hi, hlow⟩ := exists_lowest_set bv hb
            have h1 := getElem?_eq_testBit_bvValue bv i (by
              by_contra hc
              rw [List.getElem?_eq_none (by omega)] at hi
              exact Option.noConfusion hi)
            rw [hi, hz] at h1
            simp at h1
        refine ⟨?_, fun h => absurd h h0⟩
        unfold decrement
        rw [hemp]
        simpa using hlen
    obtain ⟨rest, hrest, hrows⟩ := ih (decrement bv) hdec.1 hdec.2
    refine ⟨(cnt, conj) :: rest, by simp only [partialDecoderLoop, hL, hconj, hrest,
      Option.some_bind, Option.map_some'], fun input i hi => ?_⟩
    rw [evalPartialDecoder_cons]
    by_cases hic : cnt = i
    · subst hic
      rw [if_pos rfl, hall input]
      constructor
      · intro h idx hidx
        have h1 := h idx hidx
        rw [getElem?_eq_testBit_bvValue bv idx (by omega), hv] at h1
        exact (Option.some.inj h1).symm
      · intro h idx hidx
        rw [getElem?_eq_testBit_bvValue bv idx (by omega), hv, h idx hidx]
    · rw [if_neg hic]
      exact hrows input i (by omega)

theorem inputBits_add (v a idx : Nat) :
    inputBits v ((a : Int) + (idx : Int)) = v.testBit (a + idx) := by
  unfold inputBits
  have h1 : (0 : Int) ≤ (a : Int) + (idx : Int) := by omega
  have h2 : ((a : Int) + (idx : Int)).toNat = a + idx := by omega
  simp [h1, h2]

/-- Each position below `q * k` is assigned by exactly the statement for its
column `p / q` and row `p % q`. -/
theorem generateGrid_find (n p : Nat) (hp : p < q n * k n) :
    (generateGrid n).find? (fun g => g.target = p) =
      some { target := p, col := p / q n, row := p % q n } := by
  have hqpos : 0 < q n := Nat.pos_pow_of_pos _ (by norm_num)
  have hmem : ∀ g, g ∈ generateGrid n ↔
      ∃ i, i < k n ∧ ∃ j, j < q n ∧ g = { target := q n * i + j, col := i, row := j } := by
    intro g
    simp only [generateGrid, List.mem_flatMap, List.mem_reverse, List.mem_range, List.mem_map]
    constructor
    · rintro ⟨i, hi, j, hj, rfl⟩
      exact ⟨i, hi, j, hj, rfl⟩
    · rintro ⟨i, hi, j, hj, rfl⟩
      exact ⟨i, hi, j, hj, rfl⟩
  have hdiv : p / q n < k n := by
    rw [Nat.div_lt_iff_lt_mul hqpos, Nat.mul_comm]
    exact hp
  cases hfind : (generateGrid n).find? (fun g => g.target = p) with
  | none =>
    exfalso
    rw [List.find?_eq_none] at hfind
    apply hfind { target := p, col := p / q n, row := p % q n }
    · rw [hmem]
      exact ⟨p / q n, hdiv, p % q n, Nat.mod_lt _ hqpos, by rw [Nat.div_add_mod]⟩
    · simp
  | some g =>
    have h1 := List.mem_of_find?_eq_some hfind
    have h2 := List.find?_some hfind
    rw [hmem] at h1
    obtain ⟨i, hi, j, hj, rfl⟩ := h1
    have h3 : q n * i + j = p := by simpa using h2
    subst h3
    congr 2
    · rw [Nat.mul_add_div hqpos, Nat.div_eq_of_lt hj]
      simp
    · rw [Nat.mul_add_mod, Nat.mod_eq_of_lt hj]

theorem generateGrid_find_none (n p : Nat) (hp : q n * k n ≤ p) :
    (generateGrid n).find? (fun g => g.target = p) = none := by
  rw [List.find?_eq_none]
  intro g hg
  simp only [generateGrid, List.mem_flatMap, List.mem_reverse, List.mem_range,
    List.mem_map] at hg
  obtain ⟨i, hi, j, hj, rfl⟩ := hg
  have h1 : q n * (i + 1) ≤ q n * k n := Nat.mul_le_mul_left _ (by omega)
  have h2 : q n * (i + 1) = q n * i + q n := by ring
  simp
  omega

/-! ## Multiplier -/

theorem popcountAux_zero (fuel : Nat) : popcountAux fuel 0 = 0 := by
  induction fuel with
  | zero => rfl
  | succ f ih => simp [popcountAux, ih]

theorem popcountAux_fuel (f g x : Nat) (hf : x ≤ f) (hg : x ≤ g) :
    popcountAux f x = popcountAux g x := by
  induction f generalizing g x with
  | zero =>
    have : x = 0 := by omega
    subst this
    rw [popcountAux_zero, popcountAux_zero]
  | succ f ih =>
    by_cases hx : x = 0
    · subst hx
      rw [popcountAux_zero, popcountAux_zero]
    · cases g with
      | zero => omega
      | succ g =>
        simp only [popcountAux]
        rw [ih g (x / 2) (by omega) (by omega)]

theorem popcount_step (x : Nat) (hx : 0 < x) : popcount x = x % 2 + popcount (x / 2) := by
  unfold popcount
  cases x with
  | zero => omega
  | succ x =>
    simp only [popcountAux]
    rw [popcountAux_fuel x ((x + 1) / 2) ((x + 1) / 2) (by omega) le_rfl]

theorem popcount_zero : popcount 0 = 0 := rfl

theorem popcount_eq_zero (x : Nat) (h : popcount x = 0) : x = 0 := by
  induction x using Nat.strong_induction_on with
  | _ x ih =>
    by_contra hx
    have h1 := popcount_step x (by omega)
    have h2 : x / 2 = 0 := ih (x / 2) (by omega) (by omega)
    omega

theorem popcount_two_pow_add (l r : Nat) (hr : r < 2 ^ l) :
    popcount (2 ^ l + r) = popcount r + 1 := by
  induction l generalizing r with
  | zero =>
    have : r = 0 := by simpa using hr
    subst this
    rfl
  | succ l ih =>
    have hpos : 0 < 2 ^ l := Nat.pos_pow_of_pos l (by norm_num)
    rw [popcount_step _ (by rw [pow_succ]; omega)]
    have h1 : (2 ^ (l + 1) + r) % 2 = r % 2 := by rw [pow_succ]; omega
    have h2 : (2 ^ (l + 1) + r) / 2 = 2 ^ l + r / 2 := by rw [pow_succ]; omega
    rw [h1, h2, ih (r / 2) (by rw [pow_succ] at hr; omega)]
    by_cases hr0 : r = 0
    · subst hr0
      rfl
    · rw [popcount_step r (by omega)]
      omega

/-- The leading power of two of a non-zero number. -/
theorem leading_bit (x : Nat) (hx : x ≠ 0) :
    2 ^ floorLog2 x ≤ x ∧ x - 2 ^ floorLog2 x < 2 ^ floorLog2 x ∧
      x.testBit (floorLog2 x) = true ∧ ∀ j, floorLog2 x < j → x.testBit j = false := by
  rw [floorLog2_eq]
  have h1 : 2 ^ Nat.log 2 x ≤ x := Nat.pow_log_le_self 2 hx
  have h2 : x < 2 ^ (Nat.log 2 x + 1) := Nat.lt_pow_succ_log_self (by norm_num) x
  refine ⟨h1, by rw [pow_succ] at h2; omega, ?_, ?_⟩
  · have h3 : 2 ^ Nat.log 2 x + (x - 2 ^ Nat.log 2 x) = x := by omega
    have h4 := Nat.testBit_two_pow_add_eq (x - 2 ^ Nat.log 2 x) (Nat.log 2 x)
    have h5 : (x - 2 ^ Nat.log 2 x).testBit (Nat.log 2 x) = false :=
      Nat.testBit_lt_two_pow (by rw [pow_succ] at h2; omega)
    rw [h3, h5] at h4
    exact h4
  · intro j hj
    exact Nat.testBit_lt_two_pow
      (lt_of_lt_of_le h2 (Nat.pow_le_pow_right (by norm_num) (by omega)))

/-- The XOR with the one-hot mask of the leading bit takes that bit away. -/
theorem xor_leading_bit (x : Nat) (hx : x ≠ 0) :
    x ^^^ 2 ^ floorLog2 x = x - 2 ^ floorLog2 x := by
  obtain ⟨h1, h2, _, _⟩ := leading_bit x hx
  generalize floorLog2 x = h at h1 h2
  have h3 : x = 2 ^ h + (x - 2 ^ h) := by omega
  generalize x - 2 ^ h = r at h2 h3
  subst h3
  apply Nat.eq_of_testBit_eq
  intro j
  rw [Nat.testBit_xor, Nat.testBit_two_pow]
  rcases Nat.lt_trichotomy j h with hj | hj | hj
  · rw [Nat.testBit_two_pow_add_gt hj]
    have : ¬ h = j := by omega
    simp [this]
  · subst hj
    rw [Nat.testBit_two_pow_add_eq, Nat.testBit_lt_two_pow h2]
    simp
  · have hlt : 2 ^ h + r < 2 ^ j := by
      have : 2 ^ (h + 1) ≤ 2 ^ j := Nat.pow_le_pow_right (by norm_num) (by omega)
      rw [pow_succ] at this
      omega
    have hlt2 : r < 2 ^ j := by omega
    have : ¬ h = j := by omega
    rw [Nat.testBit_lt_two_pow hlt, Nat.testBit_lt_two_pow hlt2]
    simp [this]

/-- What a clock edge does while the multiplication is under way. -/
theorem step_active (n m mr md : Nat) (hmr : mr < 2 ^ n) (hmd : md < 2 ^ m)
    (s : MultState) (i : MultInputs) (hact : s.active = true)
    (hinv : s.prod_reg + s.mr_reg * md = mr * md) (hreset : i.reset = false)
    (himd : i.md = md) :
    (step n m s i).active = true ∧
      (step n m s i).prod_reg + (step n m s i).mr_reg * md = mr * md ∧
      popcount (step n m s i).mr_reg = popcount s.mr_reg - 1 ∧
      (s.mr_reg ≠ 0 →
        (step n m s i).mr_reg = s.mr_reg - 2 ^ floorLog2 s.mr_reg ∧
        (step n m s i).prod_reg = s.prod_reg + md * 2 ^ floorLog2 s.mr_reg) ∧
      (s.mr_reg = 0 → (step n m s i).mr_reg = 0 ∧ (step n m s i).prod_reg = s.prod_reg) := by
  by_cases hz : s.mr_reg = 0
  · have hstep : step n m s i = { s with done := true } := by
      simp [step, hreset, hact, hz]
    rw [hstep]
    simp [hact, hinv, hz, popcount_zero]
    rw [hz] at hinv
    simpa using hinv
  · obtain ⟨h1, h2, _, _⟩ := leading_bit s.mr_reg hz
    have hprod : mr * md < 2 ^ (n + m) := by
      rw [pow_add]
      exact Nat.mul_lt_mul'' hmr hmd
    have hsplit : s.mr_reg * md =
        (s.mr_reg - 2 ^ floorLog2 s.mr_reg) * md + md * 2 ^ floorLog2 s.mr_reg := by
      rw [Nat.mul_comm md, ← Nat.add_mul]
      congr 1
      omega
    have hadd : idealAdder (n + m) s.prod_reg (idealShifter md (floorLog2 s.mr_reg)) =
        s.prod_reg + md * 2 ^ floorLog2 s.mr_reg := by
      unfold idealAdder idealShifter
      exact Nat.mod_eq_of_lt (by omega)
    have hstep : step n m s i =
        { s with mr_reg := s.mr_reg - 2 ^ floorLog2 s.mr_reg,
                 prod_reg := s.prod_reg + md * 2 ^ floorLog2 s.mr_reg,
                 done := false } := by
      simp only [step, hreset, hact, hz, himd, hadd, idealDecoder, idealEncoder,
        xor_leading_bit s.mr_reg hz]
      simp
    rw [hstep]
    refine ⟨hact, ?_, ?_, fun _ => ⟨rfl, rfl⟩, fun h => absurd h hz⟩
    · simp only
      omega
    · simp only
      have h3 := popcount_two_pow_add (floorLog2 s.mr_reg) (s.mr_reg - 2 ^ floorLog2 s.mr_reg) h2
      have h4 : 2 ^ floorLog2 s.mr_reg + (s.mr_reg - 2 ^ floorLog2 s.mr_reg) = s.mr_reg := by
        omega
      rw [h4] at h3
      omega

/-- The state after any number of edges of a multiplication under way. -/
theorem run_active (n m mr md : Nat) (hmr : mr < 2 ^ n) (hmd : md < 2 ^ m)
    (ins : List MultInputs) (hins : ∀ i ∈ ins, i.reset = false ∧ i.md = md)
    (s : MultState) (hact : s.active = true)
    (hinv : s.prod_reg + s.mr_reg * md = mr * md) :
    (run n m s ins).active = true ∧
      (run n m s ins).prod_reg + (run n m s ins).mr_reg * md = mr * md ∧
      popcount (run n m s ins).mr_reg = popcount s.mr_reg - ins.length := by
  induction ins generalizing s with
  | nil => exact ⟨hact, hinv, rfl⟩
  | cons i rest ih =>
    obtain ⟨hr, hm⟩ := hins i (List.mem_cons_self _ _)
    obtain ⟨h1, h2, h3, _, _⟩ := step_active n m mr md hmr hmd s i hact hinv hr hm
    obtain ⟨h4, h5, h6⟩ := ih (fun j hj => hins j (List.mem_cons_of_mem _ hj))
      (step n m s i) h1 h2
    refine ⟨h4, h5, ?_⟩
    change popcount (run n m (step n m s i) rest).mr_reg = _
    rw [h6, h3]
    simp only [List.length_cons]
    omega

/-! ## Bit vector utility: repeated decrement, increment -/

theorem bvValue_eq_zero_of_not_mem (bv : List Bool) (h : true ∉ bv) : bvValue bv = 0 := by
  by_contra hc
  exact h (mem_true_of_bvValue_pos bv (by omega))

theorem isEmpty_of_not_mem (bv : List Bool) (h : true ∉ bv) : isEmpty bv = true := by
  rw [isEmpty_eq_true_iff]
  intro b hb
  cases b with
  | false => rfl
  | true => exact absurd hb h

/-- In every case `decrement` keeps the length and lowers the value by one,
stopping at zero. -/
theorem decrement_length_value (bv : List Bool) :
    (decrement bv).length = bv.length ∧ bvValue (decrement bv) = bvValue bv - 1 := by
  by_cases h : true ∈ bv
  · obtain ⟨i, hi, hlow⟩ := exists_lowest_set bv h
    obtain ⟨hlen, hpt⟩ := decrement_pointwise bv i hi hlow
    have := bvValue_pointwise bv (decrement bv) i hlen hi hlow hpt
    exact ⟨hlen, by omega⟩
  · have h1 : decrement bv = bv := by
      unfold decrement
      rw [isEmpty_of_not_mem bv h]
      simp
    rw [h1, bvValue_eq_zero_of_not_mem bv h]
    exact ⟨rfl, rfl⟩

theorem iterate_decrement_length_value (t : Nat) (bv : List Bool) :
    (decrement^[t] bv).length = bv.length ∧ bvValue (decrement^[t] bv) = bvValue bv - t := by
  induction t with
  | zero => exact ⟨rfl, rfl⟩
  | succ t ih =>
    rw [Function.iterate_succ_apply']
    obtain ⟨h1, h2⟩ := decrement_length_value (decrement^[t] bv)
    obtain ⟨h3, h4⟩ := ih
    exact ⟨by omega, by omega⟩

theorem eq_replicate_false_of_bvValue_eq_zero (bv : List Bool) (h : bvValue bv = 0) :
    bv = List.replicate bv.length false := by
  induction bv with
  | nil => rfl
  | cons b rest ih =>
    cases b with
    | true =>
      simp only [bvValue, Bool.toNat_true] at h
      omega
    | false =>
      simp only [bvValue, Bool.toNat_false] at h
      rw [List.length_cons, List.replicate_succ, ← ih (by omega)]

theorem bvValue_replicate_false (c : Nat) : bvValue (List.replicate c false) = 0 := by
  induction c with
  | zero => rfl
  | succ c ih => simp [List.replicate_succ, bvValue, ih]

theorem bvValue_append (a b : List Bool) :
    bvValue (a ++ b) = bvValue a + 2 ^ a.length * bvValue b := by
  induction a with
  | nil => simp [bvValue]
  | cons x rest ih =>
    rw [List.cons_append]
    simp only [bvValue, List.length_cons, pow_succ]
    rw [ih]
    ring

theorem getElem?_append_cons_length (pre rest : List Bool) (x : Bool) :
    (pre ++ x :: rest)[pre.length]? = some x := by
  induction pre with
  | nil => simp
  | cons y pre ih => simpa using ih

theorem set_append_cons_length (pre rest : List Bool) (x y : Bool) :
    (pre ++ x :: rest).set pre.length y = pre ++ y :: rest := by
  induction pre with
  | nil => rfl
  | cons z pre ih => simp [ih]

/-- One round of the loop of `increment`, by the digit at the index. -/
theorem incrementLoop_succ (bv : List Bool) (fuel i : Nat) :
    incrementLoop bv (fuel + 1) i =
      match bv[i]? with
      | none => bv
      | some false => bv.set i true
      | some true => incrementLoop (bv.set i false) fuel (i + 1) := by
  rw [incrementLoop]
  by_cases h : i < bv.length
  · rw [dif_pos h, List.getElem?_eq_getElem h]
    cases bv[i] <;> simp
  · rw [dif_neg h, List.getElem?_eq_none (by omega)]

/-- The carry of `increment` runs through a block of ones and stops at the
first zero. -/
theorem incrementLoop_carry (c : Nat) (pre tail : List Bool) (fuel : Nat) (hfuel : c < fuel) :
    incrementLoop (pre ++ (List.replicate c true ++ false :: tail)) fuel pre.length =
      pre ++ (List.replicate c false ++ true :: tail) := by
  induction c generalizing pre fuel with
  | zero =>
    cases fuel with
    | zero => omega
    | succ f =>
      simp only [List.replicate_zero, List.nil_append]
      rw [incrementLoop_succ]
      simp only [getElem?_append_cons_length, set_append_cons_length]
  | succ c ih =>
    cases fuel with
    | zero => omega
    | succ f =>
      simp only [List.replicate_succ, List.cons_append]
      rw [incrementLoop_succ]
      simp only [getElem?_append_cons_length, set_append_cons_length]
      have h := ih (pre ++ [false]) f (by omega)
      simp only [List.append_assoc, List.singleton_append, List.length_append,
        List.length_singleton] at h
      exact h

/-- On a vector of ones the carry runs off the end and leaves zeros. -/
theorem incrementLoop_overflow (c : Nat) (pre : List Bool) (fuel : Nat) (hfuel : c ≤ fuel) :
    incrementLoop (pre ++ List.replicate c true) fuel pre.length =
      pre ++ List.replicate c false := by
  induction c generalizing pre fuel with
  | zero =>
    simp only [List.replicate_zero, List.append_nil]
    cases fuel with
    | zero => rfl
    | succ f =>
      rw [incrementLoop_succ, List.getElem?_eq_none (le_refl _)]
  | succ c ih =>
    cases fuel with
    | zero => omega
    | succ f =>
      simp only [List.replicate_succ]
      rw [incrementLoop_succ]
      simp only [getElem?_append_cons_length, set_append_cons_length]
      have h := ih (pre ++ [false]) f (by omega)
      simp only [List.append_assoc, List.singleton_append, List.length_append,
        List.length_singleton] at h
      exact h

/-- A vector with a zero digit is a block of ones, the lowest zero, and a rest. -/
theorem exists_lowest_clear (bv : List Bool) (h : false ∈ bv) :
    ∃ c tail, bv = List.replicate c true ++ false :: tail := by
  induction bv with
  | nil => simp at h
  | cons b rest ih =>
    cases b with
    | false => exact ⟨0, rest, rfl⟩
    | true =>
      obtain ⟨c, tail, hc⟩ := ih (by simpa using h)
      exact ⟨c + 1, tail, by rw [hc, List.replicate_succ, List.cons_append]⟩

theorem succ_lt_two_pow (L : Nat) (h : 2 ≤ L) : L + 1 < 2 ^ L := by
  induction L with
  | zero => omega
  | succ L ih =>
    by_cases h2 : L = 1
    · subst h2
      decide
    · have := ih (by omega)
      rw [pow_succ]
      omega

/-- The loop of `intToBinaryString` only writes the digit `'1'`. -/
theorem intToBinaryStringLoop_chars (size fuel i : Nat) (str s : List Char)
    (h : intToBinaryStringLoop size fuel i str = some s)
    (hstr : ∀ c ∈ str, c = '0' ∨ c = '1') : ∀ c ∈ s, c = '0' ∨ c = '1' := by
  induction fuel generalizing i str with
  | zero =>
    cases i with
    | zero =>
      simp only [intToBinaryStringLoop, Option.some.injEq] at h
      subst h
      exact hstr
    | succ i => simp [intToBinaryStringLoop] at h
  | succ f ih =>
    cases i with
    | zero =>
      simp only [intToBinaryStringLoop, Option.some.injEq] at h
      subst h
      exact hstr
    | succ i =>
      simp only [intToBinaryStringLoop] at h
      refine ih _ _ h ?_
      intro c hc
      rcases List.mem_or_eq_of_mem_set hc with h1 | h1
      · exact hstr c h1
      · exact Or.inr h1

theorem intToBinaryString_chars (i : Nat) (s : List Char) (h : intToBinaryString i = some s) :
    ∀ c ∈ s, c = '0' ∨ c = '1' := by
  unfold intToBinaryString at h
  by_cases hi : i = 0
  · simp [hi] at h
  · rw [if_neg hi] at h
    refine intToBinaryStringLoop_chars _ _ _ _ _ h ?_
    intro c hc
    exact Or.inl (List.mem_replicate.mp hc).2

theorem binaryLiteralValue_lt (s : List Char) : binaryLiteralValue s < 2 ^ s.length := by
  induction s using List.reverseRecOn with
  | nil => simp [binaryLiteralValue]
  | append_singleton s c ih =>
    rw [binaryLiteralValue_append]
    have h1 : binaryLiteralValue [c] ≤ 1 := by
      simp only [binaryLiteralValue, List.foldl_cons, List.foldl_nil]
      split <;> omega
    simp only [List.length_singleton, List.length_append, pow_succ, pow_one, pow_zero]
    omega

/-! ## Printed structure of the partial decoders, ladders and selection chain -/

/-- The conjunction printed for a counter `bv`: address bits from the top of
the range down, each complemented when the counter digit is 0. -/
theorem conjunctionLoop_eq (bv : List Bool) (lower_range : Int) (c : Nat)
    (hc : c ≤ bv.length) :
    conjunctionLoop bv lower_range c =
      some ((List.range c).reverse.map fun (t : Nat) =>
        ({ negated := !(bvValue bv).testBit t, index := lower_range + t } : AddrLiteral)) := by
  induction c with
  | zero => rfl
  | succ c ih =>
    have hidx : (lower_range + (c : Int) - lower_range).toNat = c := by simp
    have hget := getElem?_eq_testBit_bvValue bv c (by omega)
    simp only [conjunctionLoop, hidx, hget, ih (by omega), Option.some_bind, Option.map_some',
      List.range_succ, List.reverse_append, List.reverse_singleton, List.singleton_append,
      List.map_cons]
    cases (bvValue bv).testBit c <;> rfl

/-- The rows printed by the outer loop of `genPartialDecoder` when the counter
holds `cnt - 1` at entry. -/
theorem partialDecoderLoop_eq (upper_range lower_range : Int) (L : Nat)
    (hL : (upper_range + 1 - lower_range).toNat = L) (cnt : Nat) (bv : List Bool)
    (hlen : bv.length = L) (hval : 0 < cnt → bvValue bv + 1 = cnt) :
    partialDecoderLoop upper_range lower_range cnt bv =
      some ((List.range cnt).reverse.map fun (i : Nat) =>
        (i, (List.range L).reverse.map fun (t : Nat) =>
          ({ negated := !i.testBit t, index := lower_range + t } : AddrLiteral))) := by
  induction cnt generalizing bv with
  | zero => rfl
  | succ cnt ih =>
    have hv : bvValue bv = cnt := by
      have := hval (by omega)
      omega
    obtain ⟨h1, h2⟩ := decrement_length_value bv
    have hrest := ih (decrement bv) (by omega) (fun _ => by omega)
    simp only [partialDecoderLoop, hL, conjunctionLoop_eq bv lower_range L (by omega), hv,
      hrest, Option.some_bind, Option.map_some', List.range_succ, List.reverse_append,
      List.reverse_singleton, List.singleton_append, List.map_cons]

theorem mem_fineLoop (n i : Nat) (b : LadderBranch) (hb : b ∈ fineLoop n i) :
    ∃ a, 1 ≤ a ∧ a ≤ i ∧ b =
      { expr := (if (q n - 1) - a > 0 then [Piece.zeros ((q n - 1) - a)] else [])
          ++ [Piece.input, Piece.zeros a]
        amount := a } := by
  induction i with
  | zero => simp [fineLoop] at hb
  | succ i ih =>
    simp only [fineLoop, List.mem_cons] at hb
    rcases hb with h | h
    · exact ⟨i + 1, by omega, le_rfl, h⟩
    · obtain ⟨a, h1, h2, h3⟩ := ih h
      exact ⟨a, h1, by omega, h3⟩

theorem mem_coarseLoop (n i : Nat) (b : LadderBranch) (hb : b ∈ coarseLoop n i) :
    ∃ a, 1 ≤ a ∧ a ≤ i ∧ b =
      { expr := List.replicate ((k n - 1) - a) Piece.q0s ++ [Piece.fineResult]
          ++ List.replicate a Piece.q0s
        amount := a } := by
  induction i with
  | zero => simp [coarseLoop] at hb
  | succ i ih =>
    simp only [coarseLoop, List.mem_cons] at hb
    rcases hb with h | h
    · exact ⟨i + 1, by omega, le_rfl, h⟩
    · obtain ⟨a, h1, h2, h3⟩ := ih h
      exact ⟨a, h1, by omega, h3⟩

/-- The selection chain: groups from the top down, the literal of group `g`
for `g ≥ 1`, no condition for group 0. -/
theorem selectionLoop_eq (n i : Nat) :
    selectionLoop n i =
      some ((List.range i).reverse.map fun g =>
        ({ upper := q n * (g + 1) - 1, lower := q n * g,
           cond := if g = 0 then none else intToBinaryString g } : SelBranch)) := by
  induction i with
  | zero => rfl
  | succ i ih =>
    unfold selectionLoop
    by_cases h1 : i + 1 > 1
    · obtain ⟨s, hs, _, _⟩ := intToBinaryString_spec i (by omega)
      have hi : ¬ i = 0 := by omega
      simp only [h1, if_true, hs, ih, Option.some_bind, Option.map_some', List.range_succ,
        List.reverse_append, List.reverse_singleton, List.singleton_append, List.map_cons,
        hi, if_false]
    · have hi : i = 0 := by omega
      subst hi
      rfl

theorem sliceOrLoop_targets (n i : Nat) :
    (sliceOrLoop n i).map (fun a => a.1) = (List.range' 1 i).reverse := by
  induction i with
  | zero => rfl
  | succ i ih =>
    simp only [sliceOrLoop, List.map_cons, ih, List.range'_concat, List.reverse_append,
      List.reverse_singleton, List.singleton_append]
    congr 1
    omega

theorem mem_orPositions (n g p : Nat) :
    p ∈ orPositions n g ↔ q n * g ≤ p ∧ p < q n * (g + 1) := by
  unfold orPositions
  rw [List.mem_map]
  have hmul : q n * (g + 1) = q n * g + q n := by ring
  constructor
  · rintro ⟨t, ht, rfl⟩
    rw [List.mem_range] at ht
    omega
  · rintro ⟨h1, h2⟩
    refine ⟨q n * (g + 1) - 1 - p, ?_, ?_⟩
    · rw [List.mem_range]
      omega
    · omega

/-- The module printed by `genDecoder` for `n = 2 ^ e`, row by row. -/
theorem genDecoder_eq (e : Nat) :
    genDecoder (2 ^ e) = some
      { col := (List.range (k (2 ^ e))).reverse.map fun (i : Nat) =>
          (i, (List.range (e / 2)).reverse.map fun (t : Nat) =>
            ({ negated := !i.testBit t, index := (log2q (2 ^ e) : Int) + t } : AddrLiteral))
        row := (List.range (q (2 ^ e))).reverse.map fun (i : Nat) =>
          (i, (List.range ((e + 1) / 2)).reverse.map fun (t : Nat) =>
            ({ negated := !i.testBit t, index := (0 : Int) + t } : AddrLiteral))
        grid := generateGrid (2 ^ e) } := by
  have hq := q_two_pow e
  have hk := k_two_pow e
  have hcol := partialDecoderLoop_eq ((log2n (2 ^ e) : Int) - 1) (log2q (2 ^ e)) (e / 2)
    (by rw [log2n_two_pow, log2q_two_pow]; omega) (k (2 ^ e))
    (List.replicate (floorLog2 (k (2 ^ e))) true)
    (by rw [hk, floorLog2_two_pow]; simp)
    (fun _ => by rw [hk, floorLog2_two_pow]; exact bvValue_replicate_true _)
  have hrow := partialDecoderLoop_eq ((log2q (2 ^ e) : Int) - 1) 0 ((e + 1) / 2)
    (by rw [log2q_two_pow]; omega) (q (2 ^ e))
    (List.replicate (floorLog2 (q (2 ^ e))) true)
    (by rw [hq, floorLog2_two_pow]; simp)
    (fun _ => by rw [hq, floorLog2_two_pow]; exact bvValue_replicate_true _)
  simp only [genDecoder, genPartialDecoder, hcol, hrow, Option.some_bind, Option.map_some']

/-! ## Multiplier: the `active` latch -/

/-- No clock edge clears `active`: the printed process only ever assigns `'1'`
to it, also under reset. -/
theorem step_keeps_active (n m : Nat) (s : MultState) (i : MultInputs)
    (h : s.active = true) : (step n m s i).active = true := by
  simp only [step]
  split
  · exact h
  · split
    · rfl
    · split
      · exact h
      · exact h

/-- With `active` set, a clock edge in a state with `mr_reg = 0` changes no
register, whatever `start` is. -/
theorem step_done_holds (n m : Nat) (s : MultState) (i : MultInputs)
    (hact : s.active = true) (hz : s.mr_reg = 0) (hreset : i.reset = false) :
    (step n m s i).mr_reg = 0 ∧ (step n m s i).prod_reg = s.prod_reg ∧
      (step n m s i).active = true := by
  simp [step, hact, hz, hreset]

/-- With `active` clear, a reset edge is followed by an idle machine: while
`start` stays low the registers keep their reset values. -/
theorem step_idle_holds (n m : Nat) (hn : 1 ≤ n) (s : MultState) (i : MultInputs)
    (hact : s.active = false) (hmr : s.mr_reg = 2 ^ n - 1) (hprod : s.prod_reg = 0)
    (hreset : i.reset = false) (hstart : i.start = false) :
    (step n m s i).mr_reg = 2 ^ n - 1 ∧ (step n m s i).prod_reg = 0 ∧
      (step n m s i).active = false ∧ (step n m s i).done = false := by
  have hpos : 2 ≤ 2 ^ n := by
    calc 2 = 2 ^ 1 := by norm_num
      _ ≤ 2 ^ n := Nat.pow_le_pow_right (by norm_num) hn
  have hne : ¬ (2 ^ n - 1 = 0) := by omega
  simp [step, hact, hmr, hprod, hreset, hstart, hne]

/-! ## Width of the selector literals -/

/-- The number of binary digits of `g`, for `1 ≤ g < 2 ^ L`: at most `L`, and
`L` exactly in the upper half of the range. -/
theorem floorLog2_succ_le (g L : Nat) (hg : 1 ≤ g) (hlt : g < 2 ^ L) :
    floorLog2 g + 1 ≤ L ∧ (floorLog2 g + 1 = L ↔ 2 ^ L ≤ 2 * g) := by
  rw [floorLog2_eq]
  have h1 : Nat.log 2 g < L := (Nat.lt_pow_iff_log_lt (by norm_num) (by omega)).mp hlt
  have h2 : 2 ^ Nat.log 2 g ≤ g := Nat.pow_log_le_self 2 (by omega)
  have h3 : g < 2 ^ (Nat.log 2 g + 1) := Nat.lt_pow_succ_log_self (by norm_num) g
  refine ⟨by omega, ?_⟩
  constructor
  · intro h
    rw [← h, pow_succ]
    omega
  · intro h
    by_contra hne
    have h4 : Nat.log 2 g + 1 + 1 ≤ L := by omega
    have h5 : 2 ^ (Nat.log 2 g + 1 + 1) ≤ 2 ^ L := Nat.pow_le_pow_right (by norm_num) h4
    rw [pow_succ] at h5
    omega

theorem increment_replicate_true (L : Nat) :
    increment (List.replicate L true) = List.replicate L false := by
  have h := incrementLoop_overflow L [] (List.replicate L true).length (by simp)
  simpa [increment] using h

/-! ## Properties of the generator -/

/-- C1: for every power of two `n ≥ 4` the derived dimensions satisfy
`q * k = n`, `q ≥ k`, `q = k` exactly when `n` is a power of four, and
`2 ^ log2n = n`, `2 ^ log2q = q`, `2 ^ log2k = k`. -/
theorem dimensions_consistent (n e : Nat) (hpow : n = 2 ^ e) (h4 : 4 ≤ n) :
    q n * k n = n ∧ k n ≤ q n ∧ (q n = k n ↔ ∃ j, n = 4 ^ j) ∧
      2 ^ log2n n = n ∧ 2 ^ log2q n = q n ∧ 2 ^ log2k n = k n := by
  subst hpow
  refine ⟨q_mul_k_two_pow e, ?_, ?_, ?_, ?_, ?_⟩
  · rw [q_two_pow, k_two_pow]
    exact Nat.pow_le_pow_right (by norm_num) (by omega)
  · exact q_eq_k_two_pow_iff e
  · rw [log2n_two_pow]
  · rw [log2q_two_pow, q_two_pow]
  · rw [log2k_two_pow, k_two_pow]

theorem dimensions_consistent_witness :
    q 16 * k 16 = 16 ∧ k 16 ≤ q 16 ∧ (q 16 = k 16 ↔ ∃ j, 16 = 4 ^ j) ∧
      2 ^ log2n 16 = 16 ∧ 2 ^ log2q 16 = q 16 ∧ 2 ^ log2k 16 = k 16 :=
  dimensions_consistent 16 4 (by decide) (by decide)

/-- C2: for every power of two `n`, `q` is the least power of two that is not
below the square root of `n`: `q` is a power of two, `q * q ≥ n`, and every
smaller power of two `p` has `p * p < n`; `n = 16` gives
`log2n = 4, q = 4, log2q = 2, k = 4, log2k = 2` and `n = 8` gives
`log2n = 3, q = 4, log2q = 2, k = 2, log2k = 1`. -/
theorem q_least_power_of_two (n e : Nat) (hpow : n = 2 ^ e) :
    (∃ c, q n = 2 ^ c) ∧ n ≤ q n * q n ∧
      (∀ p c, p = 2 ^ c → p < q n → p * p < n) ∧
      (log2n 16, q 16, log2q 16, k 16, log2k 16) = (4, 4, 2, 4, 2) ∧
      (log2n 8, q 8, log2q 8, k 8, log2k 8) = (3, 4, 2, 2, 1) := by
  refine ⟨⟨_, rfl⟩, ?_, ?_, by decide, by decide⟩
  · exact (ceilLog2_ceilSqrt_le_iff n _).mp le_rfl
  · intro p c hp hlt
    subst hp
    unfold q at hlt
    have hc : c < ceilLog2 (ceilSqrt n) := (Nat.pow_lt_pow_iff_right (by norm_num)).mp hlt
    by_contra hcon
    have := (ceilLog2_ceilSqrt_le_iff n c).mpr (by omega)
    omega

theorem q_least_power_of_two_witness :
    (∃ c, q 32 = 2 ^ c) ∧ 32 ≤ q 32 * q 32 ∧
      (∀ p c, p = 2 ^ c → p < q 32 → p * p < 32) ∧
      (log2n 16, q 16, log2q 16, k 16, log2k 16) = (4, 4, 2, 4, 2) ∧
      (log2n 8, q 8, log2q 8, k 8, log2k 8) = (3, 4, 2, 2, 1) :=
  q_least_power_of_two 32 5 (by decide)

/-- C3: for every power of two `n ≥ 4` and every non-zero `n`-bit input, the
circuit printed by `genEncoder` (the `slice_or` assignments, the coarse encoder
on `slice_or`, the selection chain on `c_output`, the fine encoder on `f_input`,
and `c_output` concatenated with the fine output) outputs the index of the most
significant set bit of the input, provided the referenced `k`-input and
`q`-input sub-encoders return the index of the most significant set bit of
their input; comparison literals are read as the numbers they denote. -/
theorem encoder_finds_msb (n e : Nat) (hpow : n = 2 ^ e) (h4 : 4 ≤ n)
    (enc : Nat → (Nat → Bool) → Nat)
    (henc : ∀ w, w = k n ∨ w = q n → ∀ f : Nat → Bool,
      (∃ i, i < w ∧ f i = true) → IsMsbIndex w f (enc w f))
    (input : Nat → Bool) (hnz : ∃ i, i < n ∧ input i = true) :
    ∃ md out, genEncoder n = some md ∧ evalEncoder n enc md input = some out ∧
      IsMsbIndex n input out := by
  subst hpow
  have he := two_le_of_four_le_two_pow e h4
  have hqk := q_mul_k_two_pow e
  have hqpos : 0 < q (2 ^ e) := by rw [q_two_pow]; exact Nat.pos_pow_of_pos _ (by norm_num)
  have hkpos : 0 < k (2 ^ e) := by rw [k_two_pow]; exact Nat.pos_pow_of_pos _ (by norm_num)
  have h2q : 2 ^ log2q (2 ^ e) = q (2 ^ e) := by rw [log2q_two_pow, q_two_pow]
  obtain ⟨sel, hsel, hmd⟩ := genEncoder_eq (2 ^ e)
  -- the most significant set bit `r`, its group `g` and its place `t` in the group
  obtain ⟨hr1, hr2, hr3⟩ := msbIndex_spec (2 ^ e) input hnz
  set r := msbIndex (2 ^ e) input with hr
  have hg : r / q (2 ^ e) < k (2 ^ e) := by
    rw [Nat.div_lt_iff_lt_mul hqpos, Nat.mul_comm, hqk]
    exact hr1
  have ht : r % q (2 ^ e) < q (2 ^ e) := Nat.mod_lt _ hqpos
  have hdm : q (2 ^ e) * (r / q (2 ^ e)) + r % q (2 ^ e) = r := Nat.div_add_mod r _
  generalize r / q (2 ^ e) = g at hg hdm
  generalize r % q (2 ^ e) = t at ht hdm
  -- the coarse encoder returns `g`
  have hcoarse : IsMsbIndex (k (2 ^ e)) (evalSliceOr (encoderSliceOr (2 ^ e)) input)
      g := by
    refine ⟨hg, ?_, ?_⟩
    · rw [evalSliceOr_encoder]
      by_cases h0 : g = 0
      · rw [if_pos h0]
      · rw [if_neg h0, if_pos (by omega), any_orPositions]
        have : q (2 ^ e) * (g + 1) = q (2 ^ e) * g + q (2 ^ e) := by
          ring
        exact ⟨r, by omega, by omega, hr2⟩
    · intro j hj1 hj2
      rw [evalSliceOr_encoder, if_neg (by omega), if_pos (by omega)]
      cases hany : (orPositions (2 ^ e) j).any input with
      | false => rfl
      | true =>
        exfalso
        obtain ⟨p, hp1, hp2, hp3⟩ := (any_orPositions (2 ^ e) j input).mp hany
        have h1 : q (2 ^ e) * (g + 1) ≤ q (2 ^ e) * j :=
          Nat.mul_le_mul_left _ (by omega)
        have h2 : q (2 ^ e) * (j + 1) ≤ q (2 ^ e) * k (2 ^ e) :=
          Nat.mul_le_mul_left _ (by omega)
        have h3 : q (2 ^ e) * (g + 1) = q (2 ^ e) * g + q (2 ^ e) := by
          ring
        have := hr3 p (by omega) (by omega)
        rw [hp3] at this
        exact Bool.noConfusion this
  have hc : enc (k (2 ^ e)) (evalSliceOr (encoderSliceOr (2 ^ e)) input) = g :=
    isMsbIndex_unique _ _ _ _
      (henc _ (Or.inl rfl) _ ⟨0, hkpos, by rw [evalSliceOr_encoder]; simp⟩) hcoarse
  -- the fine encoder returns `t`
  have hmul : q (2 ^ e) * (g + 1) = q (2 ^ e) * g + q (2 ^ e) := by
    ring
  have hfine : IsMsbIndex (q (2 ^ e))
      (inputSlice input (q (2 ^ e) * (g + 1) - 1) (q (2 ^ e) * g))
      t := by
    refine ⟨ht, ?_, ?_⟩
    · unfold inputSlice
      rw [hdm, hr2]
      simp
      omega
    · intro j hj1 hj2
      unfold inputSlice
      have h2 : q (2 ^ e) * (g + 1) ≤ q (2 ^ e) * k (2 ^ e) :=
        Nat.mul_le_mul_left _ (by omega)
      rw [hr3 (q (2 ^ e) * g + j) (by omega) (by omega)]
      simp
  have hf : enc (q (2 ^ e))
      (inputSlice input (q (2 ^ e) * (g + 1) - 1) (q (2 ^ e) * g)) =
      t :=
    isMsbIndex_unique _ _ _ _ (henc _ (Or.inr rfl) _ ⟨_, hfine.1, hfine.2.1⟩) hfine
  refine ⟨_, r, hmd, ?_, hr1, hr2, hr3⟩
  unfold evalEncoder
  simp only [hc, evalSelection_loop (2 ^ e) input _ _ sel hsel hg, Option.map_some', hf, h2q]
  congr 1
  rw [Nat.mul_comm]
  exact hdm

theorem encoder_finds_msb_witness :
    ∃ md out, genEncoder 8 = some md ∧
      evalEncoder 8 msbIndex md (fun i => i == 5 || i == 2) = some out ∧
      IsMsbIndex 8 (fun i => i == 5 || i == 2) out :=
  encoder_finds_msb 8 3 (by decide) (by decide) msbIndex
    (fun w _ f hf => msbIndex_spec w f hf) (fun i => i == 5 || i == 2)
    ⟨5, by decide, by decide⟩

/-- C4: for every power of two `n ≥ 4`, an operand of `m = n` bits and a shift
amount `s` in `[0, n-1]`, the branches the two printed ladders take for
`shamt_lower = s mod q` and `shamt_upper = s div q` put `s mod q` zeros (fine
stage) and `q * (s div q)` zeros (coarse stage) to the right of the operand, so
the `(m+n)`-bit output is the operand with `s` zeros to its right: the operand
shifted left by `s`. -/
theorem shifter_shifts_left (n e : Nat) (hpow : n = 2 ^ e) (h4 : 4 ≤ n)
    (input : List Bool) (hlen : input.length = n) (s : Nat) (hs : s < n) :
    (∀ env : ShifterEnv, env.input = input →
      evalConcat env (selectBranch (genBarrelShifter n).fine (s % q n)) =
        List.replicate (q n - 1 - s % q n) false ++ input
          ++ List.replicate (s % q n) false) ∧
    (∀ env : ShifterEnv, env.q0s = List.replicate (q n) false →
      evalConcat env (selectBranch (genBarrelShifter n).coarse (s / q n)) =
        List.replicate ((k n - 1 - s / q n) * q n) false ++ env.fineResult
          ++ List.replicate (q n * (s / q n)) false) ∧
    evalShifter n (genBarrelShifter n) input s =
      List.replicate (n - s) false ++ input ++ List.replicate s false ∧
    (evalShifter n (genBarrelShifter n) input s).length = n + n ∧
    msbValue (evalShifter n (genBarrelShifter n) input s) = msbValue input * 2 ^ s := by
  subst hpow
  have he := two_le_of_four_le_two_pow e h4
  have hqk := q_mul_k_two_pow e
  have hqpos : 0 < q (2 ^ e) := by rw [q_two_pow]; exact Nat.pos_pow_of_pos _ (by norm_num)
  have hlo : s % q (2 ^ e) < q (2 ^ e) := Nat.mod_lt _ hqpos
  have hup : s / q (2 ^ e) < k (2 ^ e) := by
    rw [Nat.div_lt_iff_lt_mul hqpos, Nat.mul_comm, hqk]
    exact hs
  have hfine : ∀ env : ShifterEnv, env.input = input →
      evalConcat env (selectBranch (genBarrelShifter (2 ^ e)).fine (s % q (2 ^ e))) =
        List.replicate (q (2 ^ e) - 1 - s % q (2 ^ e)) false ++ input
          ++ List.replicate (s % q (2 ^ e)) false := by
    intro env henv
    rw [fine_stage _ _ env hlo, henv]
  have hcoarse : ∀ env : ShifterEnv, env.q0s = List.replicate (q (2 ^ e)) false →
      evalConcat env (selectBranch (genBarrelShifter (2 ^ e)).coarse (s / q (2 ^ e))) =
        List.replicate ((k (2 ^ e) - 1 - s / q (2 ^ e)) * q (2 ^ e)) false ++ env.fineResult
          ++ List.replicate (q (2 ^ e) * (s / q (2 ^ e))) false := by
    intro env henv
    rw [coarse_stage _ _ env hup henv, Nat.mul_comm (s / q (2 ^ e))]
  have hout : evalShifter (2 ^ e) (genBarrelShifter (2 ^ e)) input s =
      List.replicate (2 ^ e - s) false ++ input ++ List.replicate s false := by
    unfold evalShifter
    have h2q : 2 ^ log2q (2 ^ e) = q (2 ^ e) := by rw [log2q_two_pow, q_two_pow]
    have h2k : 2 ^ (log2n (2 ^ e) - log2q (2 ^ e)) = k (2 ^ e) := by
      rw [log2n_two_pow, log2q_two_pow, k_two_pow]
      congr 1
      omega
    simp only [h2q, h2k]
    rw [Nat.mod_eq_of_lt hup]
    rw [hcoarse _ rfl]
    simp only
    rw [hfine _ rfl]
    have hout2 : (genBarrelShifter (2 ^ e)).output = [Piece.zeroBit, Piece.coarseResult] := rfl
    rw [hout2]
    simp only [evalConcat, evalPiece, List.map_cons, List.map_nil, List.flatten_cons,
      List.flatten_nil, List.append_nil, List.singleton_append]
    have hs_eq : s = q (2 ^ e) * (s / q (2 ^ e)) + s % q (2 ^ e) := (Nat.div_add_mod s _).symm
    have hmul : (k (2 ^ e) - 1 - s / q (2 ^ e)) * q (2 ^ e) + q (2 ^ e) * (s / q (2 ^ e))
        + q (2 ^ e) = 2 ^ e := by
      have : k (2 ^ e) - 1 - s / q (2 ^ e) + s / q (2 ^ e) + 1 = k (2 ^ e) := by omega
      calc (k (2 ^ e) - 1 - s / q (2 ^ e)) * q (2 ^ e) + q (2 ^ e) * (s / q (2 ^ e))
            + q (2 ^ e)
          = q (2 ^ e) * (k (2 ^ e) - 1 - s / q (2 ^ e) + s / q (2 ^ e) + 1) := by ring
        _ = 2 ^ e := by rw [this, hqk]
    have hlead : 2 ^ e - s =
        1 + ((k (2 ^ e) - 1 - s / q (2 ^ e)) * q (2 ^ e) + (q (2 ^ e) - 1 - s % q (2 ^ e))) := by
      omega
    have htrail : List.replicate s false =
        List.replicate (s % q (2 ^ e)) false
          ++ List.replicate (q (2 ^ e) * (s / q (2 ^ e))) false := by
      rw [List.append_replicate_replicate]
      congr 1
      omega
    rw [htrail, hlead, List.replicate_add, List.replicate_add]
    simp only [List.replicate_one, List.singleton_append, List.append_assoc, List.cons_append,
      List.nil_append]
  refine ⟨hfine, hcoarse, hout, ?_, ?_⟩
  · rw [hout]
    simp [hlen]
    omega
  · rw [hout, msbValue_append, msbValue_append, msbValue_zeros, msbValue_zeros]
    simp

theorem shifter_shifts_left_witness :
    evalShifter 4 (genBarrelShifter 4) [true, false, true, true] 3 =
      List.replicate (4 - 3) false ++ [true, false, true, true] ++ List.replicate 3 false ∧
    msbValue (evalShifter 4 (genBarrelShifter 4) [true, false, true, true] 3) =
      msbValue [true, false, true, true] * 2 ^ 3 :=
  ⟨(shifter_shifts_left 4 2 (by decide) (by decide) [true, false, true, true] (by decide) 3
      (by decide)).2.2.1,
    (shifter_shifts_left 4 2 (by decide) (by decide) [true, false, true, true] (by decide) 3
      (by decide)).2.2.2.2⟩

/-- C5: for every power of two `n ≥ 4` and every input value `v` in `[0, n-1]`,
the statements printed by `genDecoder` (the `col` and `row` partial decoders and
`result(q*i + j) <= col(i) and row(j)` for `i` in `[0,k)`, `j` in `[0,q)`) set
result bit `p` exactly when `p = v`: the decoder drives the `n` positions
`0 .. n-1`, is one-hot, and maps distinct input values to distinct positions. -/
theorem decoder_one_hot (n e : Nat) (hpow : n = 2 ^ e) (h4 : 4 ≤ n) :
    ∃ md, genDecoder n = some md ∧
      (∀ (input : Int → Bool) (p : Nat), p < n → ∃ i j, i < k n ∧ j < q n ∧ p = q n * i + j ∧
        evalDecoder md input p =
          some (evalPartialDecoder md.col input i && evalPartialDecoder md.row input j)) ∧
      ∀ v, v < n →
        (∀ p, p < n → evalDecoder md (inputBits v) p = some (decide (p = v))) ∧
        (∀ p, n ≤ p → evalDecoder md (inputBits v) p = none) ∧
        (∃! p, evalDecoder md (inputBits v) p = some true) := by
  subst hpow
  have he := two_le_of_four_le_two_pow e h4
  have hqk := q_mul_k_two_pow e
  have hq := q_two_pow e
  have hk := k_two_pow e
  have hqpos : 0 < q (2 ^ e) := by rw [hq]; exact Nat.pos_pow_of_pos _ (by norm_num)
  -- the column decoder
  obtain ⟨col, hcol, hcolspec⟩ := partialDecoderLoop_spec ((log2n (2 ^ e) : Int) - 1)
    (log2q (2 ^ e)) (e / 2) (by rw [log2n_two_pow, log2q_two_pow]; omega) (k (2 ^ e))
    (List.replicate (floorLog2 (k (2 ^ e))) true)
    (by rw [hk, floorLog2_two_pow]; simp)
    (fun _ => by rw [hk, floorLog2_two_pow]; exact bvValue_replicate_true _)
  -- the row decoder
  obtain ⟨row, hrow, hrowspec⟩ := partialDecoderLoop_spec ((log2q (2 ^ e) : Int) - 1) 0
    ((e + 1) / 2) (by rw [log2q_two_pow]; omega) (q (2 ^ e))
    (List.replicate (floorLog2 (q (2 ^ e))) true)
    (by rw [hq, floorLog2_two_pow]; simp)
    (fun _ => by rw [hq, floorLog2_two_pow]; exact bvValue_replicate_true _)
  have hgen : genDecoder (2 ^ e) =
      some { col := col, row := row, grid := generateGrid (2 ^ e) } := by
    simp only [genDecoder, genPartialDecoder, hcol, hrow, Option.some_bind, Option.map_some']
  have heval : ∀ (input : Int → Bool) (p : Nat), p < 2 ^ e →
      evalDecoder { col := col, row := row, grid := generateGrid (2 ^ e) } input p =
        some (evalPartialDecoder col input (p / q (2 ^ e)) &&
          evalPartialDecoder row input (p % q (2 ^ e))) := by
    intro input p hp
    unfold evalDecoder
    simp only [generateGrid_find (2 ^ e) p (by rw [hqk]; exact hp), Option.map_some']
  have hdivlt : ∀ p, p < 2 ^ e → p / q (2 ^ e) < k (2 ^ e) := by
    intro p hp
    rw [Nat.div_lt_iff_lt_mul hqpos, Nat.mul_comm, hqk]
    exact hp
  refine ⟨_, hgen, ?_, ?_⟩
  · intro input p hp
    exact ⟨p / q (2 ^ e), p % q (2 ^ e), hdivlt p hp, Nat.mod_lt _ hqpos,
      (Nat.div_add_mod p _).symm, heval input p hp⟩
  intro v hv
  have hmain : ∀ p, p < 2 ^ e →
      evalDecoder { col := col, row := row, grid := generateGrid (2 ^ e) } (inputBits v) p =
        some (decide (p = v)) := by
    intro p hp
    rw [heval _ p hp]
    congr 1
    rw [Bool.eq_iff_iff, Bool.and_eq_true, decide_eq_true_iff,
      hcolspec (inputBits v) _ (hdivlt p hp), hrowspec (inputBits v) _ (Nat.mod_lt _ hqpos)]
    have hcolbits : (∀ idx : Nat, idx < e / 2 →
        inputBits v ((log2q (2 ^ e) : Int) + idx) = (p / q (2 ^ e)).testBit idx) ↔
        v / q (2 ^ e) = p / q (2 ^ e) := by
      have h1 := testBit_window v (log2q (2 ^ e)) (e / 2) (p / q (2 ^ e))
        (by rw [← hk]; exact hdivlt p hp)
      rw [log2q_two_pow, ← hq, ← hk, Nat.mod_eq_of_lt (hdivlt v hv)] at h1
      rw [← h1, log2q_two_pow]
      constructor
      · intro h idx hidx
        rw [← h idx hidx, inputBits_add]
      · intro h idx hidx
        rw [← h idx hidx, inputBits_add]
    have hrowbits : (∀ idx : Nat, idx < (e + 1) / 2 →
        inputBits v ((0 : Int) + idx) = (p % q (2 ^ e)).testBit idx) ↔
        v % q (2 ^ e) = p % q (2 ^ e) := by
      have h1 := testBit_window v 0 ((e + 1) / 2) (p % q (2 ^ e))
        (by rw [← hq]; exact Nat.mod_lt _ hqpos)
      rw [← hq, pow_zero, Nat.div_one] at h1
      rw [← h1]
      have h2 : ∀ idx : Nat, inputBits v ((0 : Int) + idx) = v.testBit (0 + idx) := by
        intro idx
        simpa using inputBits_add v 0 idx
      constructor
      · intro h idx hidx
        rw [← h idx hidx, h2]
      · intro h idx hidx
        rw [← h idx hidx, h2]
    rw [hcolbits, hrowbits]
    constructor
    · rintro ⟨h1, h2⟩
      rw [← Nat.div_add_mod p (q (2 ^ e)), ← Nat.div_add_mod v (q (2 ^ e)), h1, h2]
    · intro h
      subst h
      exact ⟨rfl, rfl⟩
  have hnone : ∀ p, 2 ^ e ≤ p →
      evalDecoder { col := col, row := row, grid := generateGrid (2 ^ e) } (inputBits v) p =
        none := by
    intro p hp
    unfold evalDecoder
    simp only [generateGrid_find_none (2 ^ e) p (by rw [hqk]; exact hp), Option.map_none']
  refine ⟨hmain, hnone, v, ?_, ?_⟩
  · simp only
    rw [hmain v hv]
    simp
  · intro p hp
    by_cases hpn : p < 2 ^ e
    · rw [hmain p hpn] at hp
      simpa using hp
    · rw [hnone p (by omega)] at hp
      exact Option.noConfusion hp

theorem decoder_one_hot_witness :
    ∃ md, genDecoder 8 = some md ∧
      ∀ v, v < 8 → ∀ p, p < 8 → evalDecoder md (inputBits v) p = some (decide (p = v)) := by
  obtain ⟨md, h1, _, h2⟩ := decoder_one_hot 8 3 (by decide) (by decide)
  exact ⟨md, h1, fun v hv => (h2 v hv).1⟩

/-- C6, as stated, fails: the start edge does not load `md`.  For `n = m = 4`,
after power-up and a start edge with `mr = 3`, `md = 1`, two edges on which the
`md` port reads 2 leave `mr_reg = 0` and `prod_reg = 6`, not `mr * md = 3`. -/
theorem unlatched_md_counterexample :
    (step 4 4 ⟨15, 0, false, false⟩ ⟨false, true, 3, 1⟩).mr_reg = 3 ∧
      (run 4 4 (step 4 4 ⟨15, 0, false, false⟩ ⟨false, true, 3, 1⟩)
        [⟨false, false, 0, 2⟩, ⟨false, false, 0, 2⟩]).mr_reg = 0 ∧
      (run 4 4 (step 4 4 ⟨15, 0, false, false⟩ ⟨false, true, 3, 1⟩)
        [⟨false, false, 0, 2⟩, ⟨false, false, 0, 2⟩]).prod_reg = 6 ∧
      (run 4 4 (step 4 4 ⟨15, 0, false, false⟩ ⟨false, true, 3, 1⟩)
        [⟨false, false, 0, 2⟩, ⟨false, false, 0, 2⟩]).prod_reg ≠ 3 * 1 := by
  decide

/-- C6, amended: for the clocked process printed by `genAlgorithm`, as a step
function on `(mr_reg, prod_reg, active, done)` with ideal encoder, decoder,
shifter and adder: from a state with `active = 0` (such as power-up), a clock
edge with `start = 1` loads `mr` and clears the product; `md` is not loaded but
read from its port at every edge.  When reset stays low and the `md` port holds
the same value `md` on every following edge, then on every such edge at which
`hw_done = 0` the highest set bit of `mr_reg` is cleared and `md` shifted left
by the index of that bit is added to `prod_reg`; `prod_reg + mr_reg * md` stays
equal to `mr * md`; the number of set bits of `mr_reg` drops by one per edge, so
after `popcount mr` edges `mr_reg` is zero and `prod_reg = mr * md`. -/
theorem multiplier_shift_and_add (n m mr md : Nat) (hmr : mr < 2 ^ n) (hmd : md < 2 ^ m)
    (s0 : MultState) (h0 : s0.active = false) (load : MultInputs)
    (hload : load = { reset := false, start := true, mr := mr, md := md })
    (ins : List MultInputs) (hins : ∀ i ∈ ins, i.reset = false ∧ i.md = md) :
    (step n m s0 load).mr_reg = mr ∧ (step n m s0 load).prod_reg = 0 ∧
      (step n m s0 load).active = true ∧
      (run n m (step n m s0 load) ins).prod_reg
        + (run n m (step n m s0 load) ins).mr_reg * md = mr * md ∧
      (∀ i : MultInputs, i.reset = false → i.md = md →
        (run n m (step n m s0 load) ins).mr_reg ≠ 0 →
        ∃ h, (run n m (step n m s0 load) ins).mr_reg.testBit h = true ∧
          (∀ j, h < j → (run n m (step n m s0 load) ins).mr_reg.testBit j = false) ∧
          (step n m (run n m (step n m s0 load) ins) i).mr_reg =
            (run n m (step n m s0 load) ins).mr_reg - 2 ^ h ∧
          (step n m (run n m (step n m s0 load) ins) i).prod_reg =
            (run n m (step n m s0 load) ins).prod_reg + md * 2 ^ h) ∧
      popcount (run n m (step n m s0 load) ins).mr_reg = popcount mr - ins.length ∧
      (popcount mr ≤ ins.length →
        (run n m (step n m s0 load) ins).mr_reg = 0 ∧
        (run n m (step n m s0 load) ins).prod_reg = mr * md) := by
  subst hload
  have hs1 : step n m s0 { reset := false, start := true, mr := mr, md := md } =
      { mr_reg := mr, prod_reg := 0, active := true, done := decide (s0.mr_reg = 0) } := by
    simp [step, h0]
  rw [hs1]
  obtain ⟨hact, hinv, hpop⟩ := run_active n m mr md hmr hmd ins hins
    { mr_reg := mr, prod_reg := 0, active := true, done := decide (s0.mr_reg = 0) } rfl
    (by simp)
  have hpop' : popcount (run n m ⟨mr, 0, true, decide (s0.mr_reg = 0)⟩ ins).mr_reg =
      popcount mr - ins.length := hpop
  refine ⟨rfl, rfl, rfl, hinv, ?_, hpop', ?_⟩
  · intro i hr hm hnz
    obtain ⟨_, _, hbit, hhigh⟩ := leading_bit _ hnz
    obtain ⟨_, _, _, hstep, _⟩ := step_active n m mr md hmr hmd _ i hact hinv hr hm
    exact ⟨_, hbit, hhigh, (hstep hnz).1, (hstep hnz).2⟩
  · intro hle
    have hzero := popcount_eq_zero _ (hpop'.trans (by omega))
    refine ⟨hzero, ?_⟩
    rw [hzero] at hinv
    simpa using hinv

theorem multiplier_shift_and_add_witness :
    (run 4 4 (step 4 4 ⟨15, 7, false, false⟩ ⟨false, true, 5, 3⟩)
        [⟨false, false, 0, 3⟩, ⟨false, true, 9, 3⟩]).mr_reg = 0 ∧
      (run 4 4 (step 4 4 ⟨15, 7, false, false⟩ ⟨false, true, 5, 3⟩)
        [⟨false, false, 0, 3⟩, ⟨false, true, 9, 3⟩]).prod_reg = 5 * 3 :=
  (multiplier_shift_and_add 4 4 5 3 (by decide) (by decide) ⟨15, 7, false, false⟩ rfl
    ⟨false, true, 5, 3⟩ rfl [⟨false, false, 0, 3⟩, ⟨false, true, 9, 3⟩]
    (by decide)).2.2.2.2.2.2 (by decide)

/-- C7: for every power of two `n ≥ 4` the fine ladder printed by
`genBarrelShifter` has explicit branches for exactly the amounts
`q-1, q-2, ..., 1`, each once and in that order, and a closing branch that is
taken for amount 0, so the amounts `0 .. q-1` are covered without duplicate or
gap; the coarse ladder does the same for `k-1, ..., 1` and `0 .. k-1`. -/
theorem ladders_cover_amounts (n e : Nat) (hpow : n = 2 ^ e) (h4 : 4 ≤ n) :
    ((genBarrelShifter n).fine.branches.map (fun b => b.amount) =
        (List.range' 1 (q n - 1)).reverse ∧
      ((genBarrelShifter n).fine.branches.map (fun b => b.amount)).Nodup ∧
      (∀ a, a < q n →
        (a = 0 ∧ selectBranch (genBarrelShifter n).fine a = (genBarrelShifter n).fine.default) ∨
        a ∈ (genBarrelShifter n).fine.branches.map (fun b => b.amount)) ∧
      (∀ a, a ∈ (genBarrelShifter n).fine.branches.map (fun b => b.amount) →
        1 ≤ a ∧ a ≤ q n - 1)) ∧
    ((genBarrelShifter n).coarse.branches.map (fun b => b.amount) =
        (List.range' 1 (k n - 1)).reverse ∧
      ((genBarrelShifter n).coarse.branches.map (fun b => b.amount)).Nodup ∧
      (∀ a, a < k n →
        (a = 0 ∧
          selectBranch (genBarrelShifter n).coarse a = (genBarrelShifter n).coarse.default) ∨
        a ∈ (genBarrelShifter n).coarse.branches.map (fun b => b.amount)) ∧
      (∀ a, a ∈ (genBarrelShifter n).coarse.branches.map (fun b => b.amount) →
        1 ≤ a ∧ a ≤ k n - 1)) ∧
    2 ≤ q n ∧ 2 ≤ k n := by
  subst hpow
  have he := two_le_of_four_le_two_pow e h4
  have hfine := fineLoop_amounts (2 ^ e) (q (2 ^ e) - 1)
  have hcoarse := coarseLoop_amounts (2 ^ e) (k (2 ^ e) - 1)
  have hsel : ∀ (ld : Ladder) (i : Nat),
      ld.branches.map (fun b => b.amount) = (List.range' 1 i).reverse →
      selectBranch ld 0 = ld.default := by
    intro ld i hld
    unfold selectBranch
    have hnone : ld.branches.find? (fun b => b.amount = 0) = none := by
      rw [List.find?_eq_none]
      intro b hb
      have hmem : b.amount ∈ ld.branches.map (fun b => b.amount) := List.mem_map_of_mem _ hb
      rw [hld, mem_reverse_range'_one] at hmem
      simp
      omega
    rw [hnone]
  refine ⟨⟨hfine, ?_, ?_, ?_⟩, ⟨hcoarse, ?_, ?_, ?_⟩, ?_, ?_⟩
  · change ((fineLoop (2 ^ e) (q (2 ^ e) - 1)).map (fun b => b.amount)).Nodup
    rw [hfine]
    exact nodup_reverse_range'_one _
  · intro a ha
    by_cases h0 : a = 0
    · left
      subst h0
      exact ⟨rfl, hsel _ _ hfine⟩
    · right
      change a ∈ (fineLoop (2 ^ e) (q (2 ^ e) - 1)).map (fun b => b.amount)
      rw [hfine, mem_reverse_range'_one]
      omega
  · intro a ha
    change a ∈ (fineLoop (2 ^ e) (q (2 ^ e) - 1)).map (fun b => b.amount) at ha
    rwa [hfine, mem_reverse_range'_one] at ha
  · change ((coarseLoop (2 ^ e) (k (2 ^ e) - 1)).map (fun b => b.amount)).Nodup
    rw [hcoarse]
    exact nodup_reverse_range'_one _
  · intro a ha
    by_cases h0 : a = 0
    · left
      subst h0
      exact ⟨rfl, hsel _ _ hcoarse⟩
    · right
      change a ∈ (coarseLoop (2 ^ e) (k (2 ^ e) - 1)).map (fun b => b.amount)
      rw [hcoarse, mem_reverse_range'_one]
      omega
  · intro a ha
    change a ∈ (coarseLoop (2 ^ e) (k (2 ^ e) - 1)).map (fun b => b.amount) at ha
    rwa [hcoarse, mem_reverse_range'_one] at ha
  · rw [q_two_pow]
    calc 2 = 2 ^ 1 := by norm_num
      _ ≤ 2 ^ ((e + 1) / 2) := Nat.pow_le_pow_right (by norm_num) (by omega)
  · rw [k_two_pow]
    calc 2 = 2 ^ 1 := by norm_num
      _ ≤ 2 ^ (e / 2) := Nat.pow_le_pow_right (by norm_num) (by omega)

theorem ladders_cover_amounts_witness :
    (genBarrelShifter 8).fine.branches.map (fun b => b.amount) =
        (List.range' 1 (q 8 - 1)).reverse ∧
      (genBarrelShifter 8).coarse.branches.map (fun b => b.amount) =
        (List.range' 1 (k 8 - 1)).reverse :=
  ⟨(ladders_cover_amounts 8 3 (by decide) (by decide)).1.1,
    (ladders_cover_amounts 8 3 (by decide) (by decide)).2.1.1⟩

/-- C8: for every power of two `n ≥ 4` the sub-encoder widths referenced by the
module printed by `genEncoder` (component declarations and instantiations) are
exactly `k` and `q`: one declaration when `q = k` (`n = 16` refers to width 4
only, `n = 256` to width 16 only), two distinct ones when `q ≠ k` (`n = 8`
refers to widths 4 and 2), and both instantiated sub-encoders are declared. -/
theorem encoder_component_widths (n e : Nat) (hpow : n = 2 ^ e) (h4 : 4 ≤ n) :
    ∃ md, genEncoder n = some md ∧
      (∀ w, w ∈ md.components ++ [md.coarseEncoder, md.fineEncoder] ↔ w = k n ∨ w = q n) ∧
      (q n = k n → md.components = [k n]) ∧
      (q n ≠ k n → md.components = [k n, q n]) ∧
      (md.components.length = 1 ↔ ∃ j, n = 4 ^ j) ∧
      md.components.Nodup ∧
      md.coarseEncoder ∈ md.components ∧ md.fineEncoder ∈ md.components ∧
      (genEncoder 16).map (fun d => (d.components, d.coarseEncoder, d.fineEncoder)) =
        some ([4], 4, 4) ∧
      (genEncoder 256).map (fun d => (d.components, d.coarseEncoder, d.fineEncoder)) =
        some ([16], 16, 16) ∧
      (genEncoder 8).map (fun d => (d.components, d.coarseEncoder, d.fineEncoder)) =
        some ([2, 4], 2, 4) := by
  subst hpow
  have _he := two_le_of_four_le_two_pow e h4
  obtain ⟨sel, _, hmd⟩ := genEncoder_eq (2 ^ e)
  refine ⟨_, hmd, ?_, ?_, ?_, ?_, ?_, ?_, ?_, ?_, ?_, ?_⟩
  · intro w
    by_cases hqk : q (2 ^ e) = k (2 ^ e)
    · simp [encoderComponents, hqk]
    · simp only [encoderComponents, ne_eq, hqk, not_false_eq_true, if_true, List.mem_append,
        List.mem_cons, List.mem_singleton, List.not_mem_nil, or_false]
      tauto
  · intro hqk
    simp [encoderComponents, hqk]
  · intro hqk
    simp [encoderComponents, hqk]
  · rw [← q_eq_k_two_pow_iff]
    by_cases hqk : q (2 ^ e) = k (2 ^ e)
    · simp [encoderComponents, hqk]
    · simp [encoderComponents, hqk]
  · by_cases hqk : q (2 ^ e) = k (2 ^ e)
    · simp [encoderComponents, hqk]
    · simp [encoderComponents, hqk]
      exact fun h => hqk h.symm
  · simp [encoderComponents]
  · by_cases hqk : q (2 ^ e) = k (2 ^ e)
    · simp [encoderComponents, hqk]
    · simp [encoderComponents, hqk]
  · decide
  · obtain ⟨sel256, _, h256⟩ := genEncoder_eq 256
    rw [h256]
    have hq : q 256 = 16 := by
      have := q_two_pow 8
      norm_num at this
      exact this
    have hk : k 256 = 16 := by
      have := k_two_pow 8
      norm_num at this
      exact this
    simp [encoderComponents, hq, hk]
  · decide

theorem encoder_component_widths_witness :
    ∃ md, genEncoder 8 = some md ∧ md.components = [k 8, q 8] := by
  obtain ⟨md, h1, _, _, h3, _⟩ := encoder_component_widths 8 3 (by decide) (by decide)
  exact ⟨md, h1, h3 (by decide)⟩

/-- C9: for every bit vector `v` (least significant digit first) that is not
all-false, `decrement v` has the length of `v` and the value of `v` minus one:
the lowest set digit is cleared, every digit below it is set, and all higher
digits are unchanged. -/
theorem decrement_subtracts_one (v : List Bool) (h : true ∈ v) :
    (decrement v).length = v.length ∧ bvValue (decrement v) = bvValue v - 1 ∧
      0 < bvValue v ∧
      ∃ i, v[i]? = some true ∧ (∀ j : Nat, j < i → v[j]? = some false) ∧
        (decrement v)[i]? = some false ∧ (∀ j : Nat, j < i → (decrement v)[j]? = some true) ∧
        ∀ j : Nat, i < j → (decrement v)[j]? = v[j]? := by
  obtain ⟨i, hi, hlow⟩ := exists_lowest_set v h
  obtain ⟨hlen, hpt⟩ := decrement_pointwise v i hi hlow
  have hval := bvValue_pointwise v (decrement v) i hlen hi hlow hpt
  refine ⟨hlen, by omega, by omega, i, hi, hlow, ?_, ?_, ?_⟩
  · simpa using hpt i
  · intro j hj
    simpa [hj] using hpt j
  · intro j hj
    have h1 : ¬ j < i := by omega
    have h2 : ¬ j = i := by omega
    simpa [h1, h2] using hpt j

theorem decrement_subtracts_one_witness :
    true ∈ [false, false, true, false, true] ∧
      (decrement [false, false, true, false, true]).length = 5 ∧
      bvValue (decrement [false, false, true, false, true]) =
        bvValue [false, false, true, false, true] - 1 :=
  ⟨by decide, (decrement_subtracts_one [false, false, true, false, true] (by decide)).1,
    (decrement_subtracts_one [false, false, true, false, true] (by decide)).2.1⟩

/-- C10: for every all-false bit vector of any length, length 0 included,
`decrement` returns the vector unchanged (it saturates at zero), so a second
`decrement` changes nothing either. -/
theorem decrement_saturates_at_zero (L : Nat) :
    decrement (List.replicate L false) = List.replicate L false ∧
      decrement (decrement (List.replicate L false)) = decrement (List.replicate L false) ∧
      decrement [] = [] := by
  have h : decrement (List.replicate L false) = List.replicate L false := by
    unfold decrement
    rw [isEmpty_replicate_false]
    simp
  refine ⟨h, ?_, by decide⟩
  rw [h, h]

/-- C11, as stated, fails: two decrements of the all-ones vector of length 2
leave the value 1, not the all-zero vector. -/
theorem decrement_L_times_counterexample :
    ¬ (decrement^[2] (List.replicate 2 true) = List.replicate 2 false) := by
  decide

/-- C11, amended: for every `L` (width `W = 2 ^ L`), `W - 1` decrements of the
all-ones vector of length `L` give the all-zero vector; `t` decrements give the
value `2 ^ L - 1 - t` at unchanged length, so `L` decrements reach zero only for
`L ≤ 1`. -/
theorem decrement_all_ones_reaches_zero (L : Nat) :
    decrement^[2 ^ L - 1] (List.replicate L true) = List.replicate L false ∧
      (∀ t, (decrement^[t] (List.replicate L true)).length = L ∧
        bvValue (decrement^[t] (List.replicate L true)) = 2 ^ L - 1 - t) ∧
      (decrement^[L] (List.replicate L true) = List.replicate L false ↔ L ≤ 1) := by
  have hval : ∀ t, (decrement^[t] (List.replicate L true)).length = L ∧
      bvValue (decrement^[t] (List.replicate L true)) = 2 ^ L - 1 - t := by
    intro t
    obtain ⟨h1, h2⟩ := iterate_decrement_length_value t (List.replicate L true)
    have h3 := bvValue_replicate_true L
    rw [List.length_replicate] at h1
    exact ⟨h1, by omega⟩
  have hzero : ∀ t, 2 ^ L - 1 ≤ t →
      decrement^[t] (List.replicate L true) = List.replicate L false := by
    intro t ht
    obtain ⟨h1, h2⟩ := hval t
    have h3 := eq_replicate_false_of_bvValue_eq_zero _ (h2.trans (by omega))
    rw [h1] at h3
    exact h3
  refine ⟨hzero _ le_rfl, hval, ?_⟩
  constructor
  · intro h
    by_contra hL
    have h1 := (hval L).2
    rw [h, bvValue_replicate_false] at h1
    have h2 := succ_lt_two_pow L (by omega)
    omega
  · intro hL
    apply hzero
    have : L = 0 ∨ L = 1 := by omega
    rcases this with h0 | h0 <;> subst h0 <;> decide

/-- C12: for every bit vector `v` (least significant digit first) with at
least one false digit, `increment v` has the length of `v` and the value of `v`
plus one: the ones below the lowest zero are cleared and that zero is set; the
all-zero vector of length `L ≥ 1` becomes the vector that stands for 1. -/
theorem increment_adds_one (v : List Bool) (h : false ∈ v) :
    (increment v).length = v.length ∧ bvValue (increment v) = bvValue v + 1 ∧
      (∃ c tail, v = List.replicate c true ++ false :: tail ∧
        increment v = List.replicate c false ++ true :: tail) ∧
      (∀ L, 1 ≤ L →
        increment (List.replicate L false) = true :: List.replicate (L - 1) false ∧
        bvValue (increment (List.replicate L false)) = 1) := by
  have hform : ∀ (c : Nat) (tail : List Bool),
      increment (List.replicate c true ++ false :: tail) =
        List.replicate c false ++ true :: tail := by
    intro c tail
    have := incrementLoop_carry c [] tail
      (List.replicate c true ++ false :: tail).length (by simp)
    simpa [increment] using this
  obtain ⟨c, tail, hv⟩ := exists_lowest_clear v h
  refine ⟨?_, ?_, ⟨c, tail, hv, by rw [hv, hform]⟩, ?_⟩
  · rw [hv, hform]
    simp
  · rw [hv, hform, bvValue_append, bvValue_append, bvValue_replicate_false]
    have h1 := bvValue_replicate_true c
    simp only [bvValue, List.length_replicate, Bool.toNat_true, Bool.toNat_false]
    have h2 : 2 ^ c * (1 + 2 * bvValue tail) = 2 ^ c + 2 ^ c * (0 + 2 * bvValue tail) := by
      ring
    omega
  · intro L hL
    obtain ⟨M, rfl⟩ : ∃ M, L = M + 1 := ⟨L - 1, by omega⟩
    have h0 := hform 0 (List.replicate M false)
    simp only [List.replicate_zero, List.nil_append] at h0
    rw [List.replicate_succ, h0]
    simp [bvValue, bvValue_replicate_false]

theorem increment_adds_one_witness :
    false ∈ [true, true, false, true] ∧
      (increment [true, true, false, true]).length = 4 ∧
      bvValue (increment [true, true, false, true]) = bvValue [true, true, false, true] + 1 :=
  ⟨by decide, (increment_adds_one [true, true, false, true] (by decide)).1,
    (increment_adds_one [true, true, false, true] (by decide)).2.1⟩

/-- C13, as stated, fails at `i = 0`: the logarithm of zero has no integer
part and the conversion returns no string. -/
theorem intToBinaryString_zero_counterexample : ¬ ∃ s, intToBinaryString 0 = some s := by
  rintro ⟨s, hs⟩
  have h : intToBinaryString 0 = none := by decide
  rw [h] at hs
  exact Option.noConfusion hs

/-- C13, amended: for every integer `i ≥ 1`, `intToBinaryString i` returns a
string of exactly `floor(log2 i) + 1` characters, each `'0'` or `'1'`, that
denotes `i` when read as a binary numeral, most significant digit first; its
first character is `'1'`. -/
theorem intToBinaryString_binary (i : Nat) (hi : 1 ≤ i) :
    ∃ s, intToBinaryString i = some s ∧ s.length = floorLog2 i + 1 ∧
      (∀ c ∈ s, c = '0' ∨ c = '1') ∧ binaryLiteralValue s = i ∧
      s.head? = some '1' := by
  obtain ⟨s, hs, hlen, hval⟩ := intToBinaryString_spec i hi
  have hchars := intToBinaryString_chars i s hs
  refine ⟨s, hs, hlen, hchars, hval, ?_⟩
  cases s with
  | nil => simp at hlen
  | cons c rest =>
    rcases hchars c (List.mem_cons_self _ _) with hc | hc
    · exfalso
      subst hc
      have h1 := binaryLiteralValue_append ['0'] rest
      simp only [List.singleton_append] at h1
      have h2 : binaryLiteralValue ['0'] = 0 := by simp [binaryLiteralValue]
      rw [h2] at h1
      have h3 := binaryLiteralValue_lt rest
      have h4 : rest.length = floorLog2 i := by simpa using hlen
      have h5 : 2 ^ floorLog2 i ≤ i := by
        rw [floorLog2_eq]
        exact Nat.pow_log_le_self 2 (by omega)
      rw [h4] at h3
      omega
    · simp [hc]

theorem intToBinaryString_binary_witness :
    ∃ s, intToBinaryString 6 = some s ∧ s.length = floorLog2 6 + 1 ∧
      (∀ c ∈ s, c = '0' ∨ c = '1') ∧ binaryLiteralValue s = 6 ∧
      s.head? = some '1' :=
  intToBinaryString_binary 6 (by decide)

/-- C14, evaluated on the code for `n = m = 4`: after power-up, a load of
`mr = 1`, `md = 1` and two more edges the machine is in a Done state
(`mr_reg = 0`, `prod_reg = 1`, `done = 1`) with `active` still set; the next
edge with `start = 1` and `mr = 3` neither captures `mr` nor clears `prod_reg`. -/
theorem done_state_ignores_start :
    run 4 4 ⟨15, 0, false, false⟩
        [⟨false, true, 1, 1⟩, ⟨false, false, 0, 1⟩, ⟨false, false, 0, 1⟩] =
      ⟨0, 1, true, true⟩ ∧
    step 4 4 ⟨0, 1, true, true⟩ ⟨false, true, 3, 2⟩ = ⟨0, 1, true, true⟩ ∧
    (step 4 4 ⟨0, 1, true, true⟩ ⟨false, true, 3, 2⟩).mr_reg ≠ 3 ∧
    (step 4 4 ⟨0, 1, true, true⟩ ⟨false, true, 3, 2⟩).prod_reg ≠ 0 := by
  decide

/-- C15, evaluated on the code for `n = m = 4`: after power-up and a load, a
reset edge sets `mr_reg` to all ones and `prod_reg` to zero but leaves `active`
set; on the next edge, with reset and `start` low, the machine clears the top
bit of `mr_reg` and adds the shifted `md` to `prod_reg`. -/
theorem reset_leaves_active_set :
    run 4 4 ⟨15, 0, false, false⟩ [⟨false, true, 1, 1⟩, ⟨true, false, 0, 1⟩] =
      ⟨15, 0, true, false⟩ ∧
    step 4 4 ⟨15, 0, true, false⟩ ⟨false, false, 0, 1⟩ = ⟨7, 8, true, false⟩ ∧
    (step 4 4 ⟨15, 0, true, false⟩ ⟨false, false, 0, 1⟩).mr_reg ≠ 2 ^ 4 - 1 ∧
    (step 4 4 ⟨15, 0, true, false⟩ ⟨false, false, 0, 1⟩).prod_reg ≠ 0 := by
  decide

/-- C16: for every power of two `n ≥ 4`, `log2k = log2n - log2q`; so a
`log2k`-bit `c_output` placed above the `log2q` fine bits fills exactly the
output bits `log2n-1 downto log2q`, the slice `shamt(log2n-1 downto log2q)` has
`log2k` bits, and the address range `log2n-1 downto log2q` of the column
partial decoder has `log2(k)` bits, the length of its counter: every column
conjunction has one factor for each of these bits. -/
theorem coarse_field_width (n e : Nat) (hpow : n = 2 ^ e) (h4 : 4 ≤ n) :
    log2k n = log2n n - log2q n ∧ log2q n ≤ log2n n ∧
      (∀ c f, c < 2 ^ log2k n → f < 2 ^ log2q n →
        c * 2 ^ log2q n + f < 2 ^ log2n n ∧ (c * 2 ^ log2q n + f) / 2 ^ log2q n = c) ∧
      (∀ s, s < 2 ^ log2n n →
        (s / 2 ^ log2q n) % 2 ^ (log2n n - log2q n) = s / 2 ^ log2q n ∧
        s / 2 ^ log2q n < 2 ^ log2k n) ∧
      ((log2n n : Int) - 1) - (log2q n : Int) + 1 = (log2k n : Int) ∧
      (List.replicate (floorLog2 (k n)) true).length = log2k n ∧
      ∃ md, genDecoder n = some md ∧
        ∀ row ∈ md.col, row.2.length = log2k n ∧
          row.2.map (fun l => l.index) =
            (List.range (log2k n)).reverse.map (fun (t : Nat) => (log2q n : Int) + t) := by
  subst hpow
  have he := two_le_of_four_le_two_pow e h4
  have hn := log2n_two_pow e
  have hq := log2q_two_pow e
  have hk := log2k_two_pow e
  have hsum : log2k (2 ^ e) + log2q (2 ^ e) = log2n (2 ^ e) := by omega
  have hqpos : 0 < 2 ^ log2q (2 ^ e) := Nat.pos_pow_of_pos _ (by norm_num)
  have hpow : 2 ^ log2n (2 ^ e) = 2 ^ log2k (2 ^ e) * 2 ^ log2q (2 ^ e) := by
    rw [← hsum, pow_add]
  have hup : ∀ s, s < 2 ^ log2n (2 ^ e) → s / 2 ^ log2q (2 ^ e) < 2 ^ log2k (2 ^ e) := by
    intro s hs
    rw [Nat.div_lt_iff_lt_mul hqpos, ← hpow]
    exact hs
  refine ⟨by omega, by omega, ?_, ?_, by omega, by simp [log2k], ?_⟩
  · intro c f hc hf
    constructor
    · rw [hpow]
      calc c * 2 ^ log2q (2 ^ e) + f < c * 2 ^ log2q (2 ^ e) + 2 ^ log2q (2 ^ e) := by omega
        _ = (c + 1) * 2 ^ log2q (2 ^ e) := by ring
        _ ≤ 2 ^ log2k (2 ^ e) * 2 ^ log2q (2 ^ e) := Nat.mul_le_mul_right _ (by omega)
    · rw [Nat.mul_comm, Nat.mul_add_div hqpos, Nat.div_eq_of_lt hf]
      rfl
  · intro s hs
    have h1 : log2n (2 ^ e) - log2q (2 ^ e) = log2k (2 ^ e) := by omega
    rw [h1]
    exact ⟨Nat.mod_eq_of_lt (hup s hs), hup s hs⟩
  · refine ⟨_, genDecoder_eq e, ?_⟩
    intro row hrow
    simp only [List.mem_map, List.mem_reverse, List.mem_range] at hrow
    obtain ⟨i, _, rfl⟩ := hrow
    rw [hk]
    simp

theorem coarse_field_width_witness :
    log2k 8 = log2n 8 - log2q 8 ∧ log2q 8 ≤ log2n 8 :=
  ⟨(coarse_field_width 8 3 (by decide) (by decide)).1,
    (coarse_field_width 8 3 (by decide) (by decide)).2.1⟩

/-- C17: for every power of two `n ≥ 4` (`m = n`) each branch of the printed
ladders has the width of the signal it is assigned to.  A fine branch for
amount `i`, and the closing one with `i = 0`, is `q-1-i` zeros, the `m`-bit
operand and `i` zeros: `m+q-1` bits, the width of `fine_result`.  A coarse
branch is `k-1` groups of `q` zeros around the fine result: `m+n-1` bits, the
width of `coarse_result`.  The output, one zero before `coarse_result`, has
`m+n` bits. -/
theorem ladder_branch_widths (n e : Nat) (hpow : n = 2 ^ e) (h4 : 4 ≤ n) (env : ShifterEnv)
    (hin : env.input.length = n) (hq0 : env.q0s = List.replicate (q n) false)
    (hfr : env.fineResult.length = n + q n - 1)
    (hcr : env.coarseResult.length = n + n - 1) :
    (∀ b ∈ (genBarrelShifter n).fine.branches,
      evalConcat env b.expr =
        List.replicate (q n - 1 - b.amount) false ++ env.input
          ++ List.replicate b.amount false ∧
      (evalConcat env b.expr).length = n + q n - 1) ∧
    (evalConcat env (genBarrelShifter n).fine.default =
        List.replicate (q n - 1) false ++ env.input ∧
      (evalConcat env (genBarrelShifter n).fine.default).length = n + q n - 1) ∧
    (∀ b ∈ (genBarrelShifter n).coarse.branches,
      evalConcat env b.expr =
        List.replicate ((k n - 1 - b.amount) * q n) false ++ env.fineResult
          ++ List.replicate (b.amount * q n) false ∧
      (evalConcat env b.expr).length = n + n - 1) ∧
    (evalConcat env (genBarrelShifter n).coarse.default =
        List.replicate ((k n - 1) * q n) false ++ env.fineResult ∧
      (evalConcat env (genBarrelShifter n).coarse.default).length = n + n - 1) ∧
    (evalConcat env (genBarrelShifter n).output = false :: env.coarseResult ∧
      (evalConcat env (genBarrelShifter n).output).length = n + n) ∧
    (k n - 1) * q n + (n + q n - 1) = n + n - 1 := by
  subst hpow
  have he := two_le_of_four_le_two_pow e h4
  have hqk := q_mul_k_two_pow e
  have hqpos : 0 < q (2 ^ e) := by rw [q_two_pow]; exact Nat.pos_pow_of_pos _ (by norm_num)
  have hkpos : 0 < k (2 ^ e) := by rw [k_two_pow]; exact Nat.pos_pow_of_pos _ (by norm_num)
  have hnpos : 0 < 2 ^ e := Nat.pos_pow_of_pos _ (by norm_num)
  have hwidth : (k (2 ^ e) - 1) * q (2 ^ e) + (2 ^ e + q (2 ^ e) - 1) = 2 ^ e + 2 ^ e - 1 := by
    have h1 : (k (2 ^ e) - 1) * q (2 ^ e) + q (2 ^ e) = 2 ^ e := by
      calc (k (2 ^ e) - 1) * q (2 ^ e) + q (2 ^ e) = q (2 ^ e) * (k (2 ^ e) - 1 + 1) := by ring
        _ = 2 ^ e := by rw [Nat.sub_add_cancel hkpos, hqk]
    omega
  refine ⟨?_, ?_, ?_, ?_, ?_, hwidth⟩
  · intro b hb
    obtain ⟨a, h1, h2, rfl⟩ := mem_fineLoop _ _ b hb
    have hexpr : evalConcat env
        ((if q (2 ^ e) - 1 - a > 0 then [Piece.zeros (q (2 ^ e) - 1 - a)] else [])
          ++ [Piece.input, Piece.zeros a]) =
        List.replicate (q (2 ^ e) - 1 - a) false ++ env.input ++ List.replicate a false := by
      by_cases h3 : q (2 ^ e) - 1 - a > 0
      · simp [evalConcat, evalPiece, h3]
      · have h4 : q (2 ^ e) - 1 - a = 0 := by omega
        simp [evalConcat, evalPiece, h4]
    refine ⟨hexpr, ?_⟩
    simp only [hexpr, List.length_append, List.length_replicate, hin]
    omega
  · have hd : (genBarrelShifter (2 ^ e)).fine.default =
        [Piece.zeros (q (2 ^ e) - 1), Piece.input] := rfl
    rw [hd]
    have hexpr : evalConcat env [Piece.zeros (q (2 ^ e) - 1), Piece.input] =
        List.replicate (q (2 ^ e) - 1) false ++ env.input := by
      simp [evalConcat, evalPiece]
    refine ⟨hexpr, ?_⟩
    simp only [hexpr, List.length_append, List.length_replicate, hin]
    omega
  · intro b hb
    obtain ⟨a, h1, h2, rfl⟩ := mem_coarseLoop _ _ b hb
    have hexpr : evalConcat env
        (List.replicate (k (2 ^ e) - 1 - a) Piece.q0s ++ [Piece.fineResult]
          ++ List.replicate a Piece.q0s) =
        List.replicate ((k (2 ^ e) - 1 - a) * q (2 ^ e)) false ++ env.fineResult
          ++ List.replicate (a * q (2 ^ e)) false := by
      rw [evalConcat_append, evalConcat_append, evalConcat_q0s env _ _ hq0,
        evalConcat_q0s env _ _ hq0]
      simp [evalConcat, evalPiece]
    refine ⟨hexpr, ?_⟩
    simp only [hexpr, List.length_append, List.length_replicate, hfr]
    have h3 : (k (2 ^ e) - 1 - a) * q (2 ^ e) + a * q (2 ^ e) = (k (2 ^ e) - 1) * q (2 ^ e) := by
      rw [← Nat.add_mul]
      congr 1
      omega
    omega
  · have hd : (genBarrelShifter (2 ^ e)).coarse.default =
        List.replicate (k (2 ^ e) - 1) Piece.q0s ++ [Piece.fineResult] := rfl
    rw [hd]
    have hexpr : evalConcat env
        (List.replicate (k (2 ^ e) - 1) Piece.q0s ++ [Piece.fineResult]) =
        List.replicate ((k (2 ^ e) - 1) * q (2 ^ e)) false ++ env.fineResult := by
      rw [evalConcat_append, evalConcat_q0s env _ _ hq0]
      simp [evalConcat, evalPiece]
    refine ⟨hexpr, ?_⟩
    simp only [hexpr, List.length_append, List.length_replicate, hfr]
    omega
  · have hd : (genBarrelShifter (2 ^ e)).output = [Piece.zeroBit, Piece.coarseResult] := rfl
    rw [hd]
    have hexpr : evalConcat env [Piece.zeroBit, Piece.coarseResult] =
        false :: env.coarseResult := by
      simp [evalConcat, evalPiece]
    refine ⟨hexpr, ?_⟩
    simp only [hexpr, List.length_cons, hcr]
    omega

theorem ladder_branch_widths_witness :
    (evalConcat ⟨[true, false, true, true], List.replicate 5 true, List.replicate 7 true,
        List.replicate 2 false⟩ (genBarrelShifter 4).fine.default).length = 4 + q 4 - 1 ∧
      (evalConcat ⟨[true, false, true, true], List.replicate 5 true, List.replicate 7 true,
        List.replicate 2 false⟩ (genBarrelShifter 4).coarse.default).length = 4 + 4 - 1 ∧
      (evalConcat ⟨[true, false, true, true], List.replicate 5 true, List.replicate 7 true,
        List.replicate 2 false⟩ (genBarrelShifter 4).output).length = 4 + 4 :=
  ⟨(ladder_branch_widths 4 2 (by decide) (by decide)
      ⟨[true, false, true, true], List.replicate 5 true, List.replicate 7 true,
        List.replicate 2 false⟩ (by decide) (by decide) (by decide) (by decide)).2.1.2,
    (ladder_branch_widths 4 2 (by decide) (by decide)
      ⟨[true, false, true, true], List.replicate 5 true, List.replicate 7 true,
        List.replicate 2 false⟩ (by decide) (by decide) (by decide) (by decide)).2.2.2.1.2,
    (ladder_branch_widths 4 2 (by decide) (by decide)
      ⟨[true, false, true, true], List.replicate 5 true, List.replicate 7 true,
        List.replicate 2 false⟩ (by decide) (by decide) (by decide) (by decide)).2.2.2.2.1.2⟩

/-- C18: for every power of two `max ≥ 2` and every address range with
`upper_range - lower_range + 1 = log2(max)`, `genPartialDecoder` prints the
positions `max-1, ..., 0` in this order, and for position `i` the conjunction
over the address bits `j` from `upper_range` down to `lower_range` in which
`input(j)` is complemented exactly when bit `j - lower_range` of `i` is 0; the
counter the loop reads for position `i`, `max-1-i` decrements after the
all-ones start, holds the value `i`. -/
theorem partial_decoder_rows (max L : Nat) (hmax : max = 2 ^ L) (h2 : 2 ≤ max)
    (upper_range lower_range : Int)
    (hrange : upper_range - lower_range + 1 = (floorLog2 max : Int)) :
    genPartialDecoder max upper_range lower_range =
      some ((List.range max).reverse.map fun (i : Nat) =>
        (i, (List.range L).reverse.map fun (t : Nat) =>
          ({ negated := !i.testBit t, index := lower_range + t } : AddrLiteral))) ∧
    upper_range = lower_range + ((L - 1 : Nat) : Int) ∧ 1 ≤ L ∧
    ∀ i, i < max →
      bvValue (decrement^[max - 1 - i] (List.replicate (floorLog2 max) true)) = i ∧
      conjunctionLoop (decrement^[max - 1 - i] (List.replicate (floorLog2 max) true))
          lower_range (upper_range + 1 - lower_range).toNat =
        some ((List.range L).reverse.map fun (t : Nat) =>
          ({ negated := !i.testBit t, index := lower_range + t } : AddrLiteral)) := by
  subst hmax
  rw [floorLog2_two_pow] at hrange
  have hL : (upper_range + 1 - lower_range).toNat = L := by omega
  have hL1 : 1 ≤ L := by
    by_contra hc
    have : L = 0 := by omega
    subst this
    simp at h2
  refine ⟨?_, by omega, hL1, ?_⟩
  · unfold genPartialDecoder
    exact partialDecoderLoop_eq upper_range lower_range L hL (2 ^ L) _
      (by rw [floorLog2_two_pow]; simp)
      (fun _ => by rw [floorLog2_two_pow]; exact bvValue_replicate_true L)
  · intro i hi
    rw [floorLog2_two_pow]
    obtain ⟨h3, h4⟩ := iterate_decrement_length_value (2 ^ L - 1 - i) (List.replicate L true)
    have h5 := bvValue_replicate_true L
    have hval : bvValue (decrement^[2 ^ L - 1 - i] (List.replicate L true)) = i := by omega
    refine ⟨hval, ?_⟩
    rw [hL, conjunctionLoop_eq _ _ _ (by rw [h3]; simp), hval]

theorem partial_decoder_rows_witness :
    genPartialDecoder 4 3 2 =
      some ((List.range 4).reverse.map fun (i : Nat) =>
        (i, (List.range 2).reverse.map fun (t : Nat) =>
          ({ negated := !i.testBit t, index := 2 + t } : AddrLiteral))) :=
  (partial_decoder_rows 4 2 (by decide) (by decide) 3 2 (by decide)).1

/-- C19: for every power of two `n ≥ 4` the selection chain printed by
`genEncoder` lists the groups from `k-1` down to 0: for `g` from `k-1` down to
1 the branch `input(q*g + q-1 downto q*g)` under the condition that `c_output`
equals the literal of `g`, which denotes `g`, and last the closing branch
`input(q-1 downto 0)` for group 0; each of the `k` slices is `q` bits wide and
every input bit `0 .. n-1` lies in exactly one of them. -/
theorem selection_chain_groups (n e : Nat) (hpow : n = 2 ^ e) (h4 : 4 ≤ n) :
    ∃ md, genEncoder n = some md ∧
      md.selection = (List.range (k n)).reverse.map (fun (g : Nat) =>
        ({ upper := q n * g + q n - 1, lower := q n * g,
           cond := if g = 0 then none else intToBinaryString g } : SelBranch)) ∧
      (∀ g, 1 ≤ g → g < k n →
        ∃ lit, intToBinaryString g = some lit ∧ binaryLiteralValue lit = g) ∧
      md.selection.getLast? = some { upper := q n - 1, lower := 0, cond := none } ∧
      md.selection.length = k n ∧
      (∀ b ∈ md.selection, b.upper + 1 - b.lower = q n ∧ b.upper < n) ∧
      (∀ p, p < n → ∃! g, g < k n ∧ q n * g ≤ p ∧ p ≤ q n * g + q n - 1) := by
  subst hpow
  have he := two_le_of_four_le_two_pow e h4
  have hqk := q_mul_k_two_pow e
  have hqpos : 0 < q (2 ^ e) := by rw [q_two_pow]; exact Nat.pos_pow_of_pos _ (by norm_num)
  have hkpos : 0 < k (2 ^ e) := by rw [k_two_pow]; exact Nat.pos_pow_of_pos _ (by norm_num)
  have hsel : selectionLoop (2 ^ e) (k (2 ^ e)) =
      some ((List.range (k (2 ^ e))).reverse.map (fun (g : Nat) =>
        ({ upper := q (2 ^ e) * g + q (2 ^ e) - 1, lower := q (2 ^ e) * g,
           cond := if g = 0 then none else intToBinaryString g } : SelBranch))) := by
    rw [selectionLoop_eq]
    simp only [Nat.mul_add, Nat.mul_one]
  have hgen : genEncoder (2 ^ e) = some
      { components := encoderComponents (2 ^ e)
        sliceOr := encoderSliceOr (2 ^ e)
        coarseEncoder := k (2 ^ e)
        selection := (List.range (k (2 ^ e))).reverse.map (fun (g : Nat) =>
          ({ upper := q (2 ^ e) * g + q (2 ^ e) - 1, lower := q (2 ^ e) * g,
             cond := if g = 0 then none else intToBinaryString g } : SelBranch))
        fineEncoder := q (2 ^ e) } := by
    simp only [genEncoder, hsel, Option.map_some']
  refine ⟨_, hgen, rfl, ?_, ?_, ?_, ?_, ?_⟩
  · intro g hg _
    obtain ⟨lit, h1, _, h2⟩ := intToBinaryString_spec g hg
    exact ⟨lit, h1, h2⟩
  · obtain ⟨K, hK⟩ : ∃ K, k (2 ^ e) = K + 1 := ⟨k (2 ^ e) - 1, by omega⟩
    simp only [hK, List.range_succ_eq_map, List.reverse_cons, List.map_append, List.map_cons,
      List.map_nil, List.getLast?_append, List.getLast?_singleton]
    simp
  · simp
  · intro b hb
    simp only [List.mem_map, List.mem_reverse, List.mem_range] at hb
    obtain ⟨g, hg, rfl⟩ := hb
    have h1 : q (2 ^ e) * (g + 1) ≤ q (2 ^ e) * k (2 ^ e) := Nat.mul_le_mul_left _ (by omega)
    have h2 : q (2 ^ e) * (g + 1) = q (2 ^ e) * g + q (2 ^ e) := by ring
    simp only
    omega
  · intro p hp
    refine ⟨p / q (2 ^ e), ⟨?_, ?_, ?_⟩, ?_⟩
    · rw [Nat.div_lt_iff_lt_mul hqpos, Nat.mul_comm, hqk]
      exact hp
    · exact Nat.mul_div_le p _
    · have := Nat.div_add_mod p (q (2 ^ e))
      have := Nat.mod_lt p hqpos
      omega
    · rintro g ⟨_, h1, h2⟩
      have h3 : p / q (2 ^ e) = g := by
        apply Nat.div_eq_of_lt_le
        · rw [Nat.mul_comm]
          exact h1
        · have : (g + 1) * q (2 ^ e) = q (2 ^ e) * g + q (2 ^ e) := by ring
          omega
      exact h3.symm

theorem selection_chain_groups_witness :
    ∃ md, genEncoder 8 = some md ∧
      md.selection = (List.range (k 8)).reverse.map (fun (g : Nat) =>
        ({ upper := q 8 * g + q 8 - 1, lower := q 8 * g,
           cond := if g = 0 then none else intToBinaryString g } : SelBranch)) := by
  obtain ⟨md, h1, h2, _⟩ := selection_chain_groups 8 3 (by decide) (by decide)
  exact ⟨md, h1, h2⟩

/-- C20, as stated, fails for group 0: for `n = 4` and the input with only bit
3 set, `slice_or(0)` is 1 although no bit of group 0 (positions 0 and 1) is set. -/
theorem slice_or_group_zero_counterexample :
    (genEncoder 4).map (fun md => evalSliceOr md.sliceOr (fun p => p == 3) 0) = some true ∧
      ¬ ∃ p, q 4 * 0 ≤ p ∧ p ≤ q 4 * 0 + q 4 - 1 ∧ (fun p => p == 3) p = true := by
  refine ⟨by decide, ?_⟩
  rintro ⟨p, _, h2, h3⟩
  have hq : q 4 = 2 := by decide
  rw [hq] at h2
  have h4 : p = 3 := by simpa using h3
  omega

/-- C20, amended: for every power of two `n ≥ 4` and every group `g` in
`[1, k-1]`, the printed module assigns `slice_or(g)` the OR of exactly the `q`
input bits of group `g` (positions `q*g .. q*g + q-1`), so bit `g` of `slice_or`
is set exactly when group `g` has a set bit; `slice_or(0)` is assigned the
constant 1.  Each index `0 .. k-1` is assigned once. -/
theorem slice_or_groups (n e : Nat) (hpow : n = 2 ^ e) (h4 : 4 ≤ n) (input : Nat → Bool) :
    ∃ md, genEncoder n = some md ∧
      md.sliceOr.map (fun a => a.1) = (List.range (k n)).reverse ∧
      (∀ g, 1 ≤ g → g < k n →
        md.sliceOr.find? (fun a => a.1 = g) = some (g, SliceRhs.orOf (orPositions n g)) ∧
        (orPositions n g).length = q n ∧
        (∀ p, p ∈ orPositions n g ↔ q n * g ≤ p ∧ p ≤ q n * g + q n - 1) ∧
        (evalSliceOr md.sliceOr input g = true ↔
          ∃ p, q n * g ≤ p ∧ p ≤ q n * g + q n - 1 ∧ input p = true)) ∧
      md.sliceOr.find? (fun a => a.1 = 0) = some (0, SliceRhs.const true) ∧
      evalSliceOr md.sliceOr input 0 = true := by
  subst hpow
  have he := two_le_of_four_le_two_pow e h4
  have hqpos : 0 < q (2 ^ e) := by rw [q_two_pow]; exact Nat.pos_pow_of_pos _ (by norm_num)
  have hkpos : 0 < k (2 ^ e) := by rw [k_two_pow]; exact Nat.pos_pow_of_pos _ (by norm_num)
  obtain ⟨sel, _, hmd⟩ := genEncoder_eq (2 ^ e)
  refine ⟨_, hmd, ?_, ?_, ?_, ?_⟩
  · simp only [encoderSliceOr, List.map_append, sliceOrLoop_targets, List.map_cons,
      List.map_nil]
    obtain ⟨K, hK⟩ : ∃ K, k (2 ^ e) = K + 1 := ⟨k (2 ^ e) - 1, by omega⟩
    rw [hK, Nat.add_sub_cancel, List.range_succ_eq_map, List.reverse_cons, List.range'_eq_map_range]
    simp [Nat.add_comm]
  · intro g hg1 hg2
    have hmul : q (2 ^ e) * (g + 1) = q (2 ^ e) * g + q (2 ^ e) := by ring
    refine ⟨?_, by simp [orPositions], ?_, ?_⟩
    · simp only [encoderSliceOr]
      rw [List.find?_append, sliceOrLoop_find, if_pos (by omega)]
      rfl
    · intro p
      rw [mem_orPositions]
      omega
    · simp only
      rw [evalSliceOr_encoder, if_neg (by omega), if_pos (by omega), any_orPositions]
      constructor
      · rintro ⟨p, h1, h2, h3⟩
        exact ⟨p, h1, by omega, h3⟩
      · rintro ⟨p, h1, h2, h3⟩
        exact ⟨p, h1, by omega, h3⟩
  · simp only [encoderSliceOr]
    rw [List.find?_append, sliceOrLoop_find, if_neg (by omega)]
    rfl
  · simp only
    rw [evalSliceOr_encoder, if_pos rfl]

theorem slice_or_groups_witness :
    ∃ md, genEncoder 8 = some md ∧
      md.sliceOr.map (fun a => a.1) = (List.range (k 8)).reverse ∧
      evalSliceOr md.sliceOr (fun p => p == 5) 0 = true := by
  obtain ⟨md, h1, h2, _, _, h3⟩ :=
    slice_or_groups 8 3 (by decide) (by decide) (fun p => p == 5)
  exact ⟨md, h1, h2, h3⟩

/-- C21, as stated, fails: for `n = 16` the comparison literal printed for
group 1 is `"1"`, one character, while `c_output` has `log2k = 2` bits. -/
theorem selector_literal_width_counterexample :
    ¬ ∀ md, genEncoder 16 = some md →
      ∀ b ∈ md.selection, ∀ lit, b.cond = some lit → lit.length = log2k 16 := by
  intro h
  have hgen : genEncoder 16 = some
      { components := [4]
        sliceOr := encoderSliceOr 16
        coarseEncoder := 4
        selection := [⟨15, 12, some ['1', '1']⟩, ⟨11, 8, some ['1', '0']⟩,
          ⟨7, 4, some ['1']⟩, ⟨3, 0, none⟩]
        fineEncoder := 4 } := by decide
  have h1 := h _ hgen ⟨7, 4, some ['1']⟩ (by decide) ['1'] rfl
  revert h1
  decide

/-- C21, amended: for every power of two `n ≥ 4`, the literal `genEncoder`
prints in the comparison with `c_output` for group `g` in `[1, k-1]` is
`intToBinaryString g`: it has `floor(log2 g) + 1` characters and denotes `g`;
that is at most `log2k`, the width of `c_output`, and equal to `log2k` exactly
for `g ≥ k/2`. -/
theorem selector_literal_widths (n e : Nat) (hpow : n = 2 ^ e) (h4 : 4 ≤ n) :
    ∃ md, genEncoder n = some md ∧
      (∀ g, 1 ≤ g → g < k n →
        ∃ lit, intToBinaryString g = some lit ∧
          ({ upper := q n * g + q n - 1, lower := q n * g, cond := some lit } : SelBranch)
            ∈ md.selection ∧
          lit.length = floorLog2 g + 1 ∧ binaryLiteralValue lit = g ∧
          lit.length ≤ log2k n ∧ (lit.length = log2k n ↔ k n ≤ 2 * g)) ∧
      (∀ b ∈ md.selection, ∀ lit, b.cond = some lit →
        ∃ g, 1 ≤ g ∧ g < k n ∧ intToBinaryString g = some lit ∧ b.lower = q n * g) := by
  subst hpow
  have he := two_le_of_four_le_two_pow e h4
  have hk : 2 ^ log2k (2 ^ e) = k (2 ^ e) := by rw [log2k_two_pow, k_two_pow]
  have hsel : selectionLoop (2 ^ e) (k (2 ^ e)) =
      some ((List.range (k (2 ^ e))).reverse.map (fun (g : Nat) =>
        ({ upper := q (2 ^ e) * g + q (2 ^ e) - 1, lower := q (2 ^ e) * g,
           cond := if g = 0 then none else intToBinaryString g } : SelBranch))) := by
    rw [selectionLoop_eq]
    simp only [Nat.mul_add, Nat.mul_one]
  have hgen : genEncoder (2 ^ e) = some
      { components := encoderComponents (2 ^ e)
        sliceOr := encoderSliceOr (2 ^ e)
        coarseEncoder := k (2 ^ e)
        selection := (List.range (k (2 ^ e))).reverse.map (fun (g : Nat) =>
          ({ upper := q (2 ^ e) * g + q (2 ^ e) - 1, lower := q (2 ^ e) * g,
             cond := if g = 0 then none else intToBinaryString g } : SelBranch))
        fineEncoder := q (2 ^ e) } := by
    simp only [genEncoder, hsel, Option.map_some']
  refine ⟨_, hgen, ?_, ?_⟩
  · intro g hg1 hg2
    obtain ⟨lit, hlit, hlen, hval⟩ := intToBinaryString_spec g hg1
    obtain ⟨hle, hiff⟩ := floorLog2_succ_le g (log2k (2 ^ e)) hg1 (by rw [hk]; exact hg2)
    refine ⟨lit, hlit, ?_, hlen, hval, by omega, ?_⟩
    · simp only [List.mem_map, List.mem_reverse, List.mem_range]
      refine ⟨g, hg2, ?_⟩
      rw [if_neg (by omega), hlit]
    · rw [hlen, hiff, hk]
  · intro b hb lit hcond
    simp only [List.mem_map, List.mem_reverse, List.mem_range] at hb
    obtain ⟨g, hg, rfl⟩ := hb
    by_cases h0 : g = 0
    · simp [h0] at hcond
    · simp only [h0, if_false] at hcond
      exact ⟨g, by omega, hg, hcond, rfl⟩

theorem selector_literal_widths_witness :
    ∃ md, genEncoder 16 = some md ∧
      ∀ b ∈ md.selection, ∀ lit, b.cond = some lit →
        ∃ g, 1 ≤ g ∧ g < k 16 ∧ intToBinaryString g = some lit ∧ b.lower = q 16 * g := by
  obtain ⟨md, h1, _, h2⟩ := selector_literal_widths 16 4 (by decide) (by decide)
  exact ⟨md, h1, h2⟩

/-- C22, as stated, fails at `n = 2 ^ 30`: the sizes are 32-bit `int` values,
`n + m` and `max(n, m) * 2` both overflow, and both references print
`CLA-2147483648`; that is not `CLA` followed by `2 * max(n, m) = 2147483648`,
and the printed size is below `n + m`. -/
theorem adder_size_overflow_counterexample :
    (⟨"CLA", -2147483648⟩ : ComponentRef) ∈ (genAlgorithm 1073741824).components ∧
      ("adder", (⟨"CLA", -2147483648⟩ : ComponentRef)) ∈ (genAlgorithm 1073741824).instances ∧
      (⟨"CLA", -2147483648⟩ : ComponentRef).printed = "CLA-2147483648" ∧
      (-2147483648 : Int) ≠ ((2 * max 1073741824 (m 1073741824) : Nat) : Int) ∧
      (-2147483648 : Int) < ((1073741824 + m 1073741824 : Nat) : Int) := by
  decide

/-- C22, amended: with `m = n` as the generator fixes it, for every `n` whose
double fits a 32-bit `int` (`2 * n < 2 ^ 31`) the two references to the external
adder in the module printed by `genAlgorithm`, the component declaration and the
instantiation, carry the same name, `CLA` followed by `2 * max(n, m)`, and that
size is not below the minimal width `n + m`; for every `n` an `int` can hold
the instantiated adder is the declared one. -/
theorem adder_references_agree (n : Nat) (hn : 2 * n < 2 ^ 31) :
    (∀ c, (c ∈ (genAlgorithm n).components ∨
          c ∈ (genAlgorithm n).instances.map (fun i => i.2)) →
        c.base = "CLA" →
        c.size = ((2 * max n (m n) : Nat) : Int) ∧
        c.printed = "CLA" ++ toString (2 * max n (m n))) ∧
      (⟨"CLA", ((2 * max n (m n) : Nat) : Int)⟩ : ComponentRef) ∈ (genAlgorithm n).components ∧
      ("adder", (⟨"CLA", ((2 * max n (m n) : Nat) : Int)⟩ : ComponentRef))
        ∈ (genAlgorithm n).instances ∧
      (∀ i ∈ (genAlgorithm n).instances, i.2 ∈ (genAlgorithm n).components) ∧
      m n = n ∧ n + m n ≤ 2 * max n (m n) ∧
      (∀ n' : Nat, n' < 2 ^ 31 →
        (⟨"CLA", claSize n'⟩ : ComponentRef) ∈ (genAlgorithm n').components) := by
  have hm : m n = n := rfl
  have hn' : 2 * n < 2147483648 := by
    have h : (2 : Nat) ^ 31 = 2147483648 := by norm_num
    omega
  have hsame : ∀ n' : Nat, wrapInt32 ((n' : Int) + (m n' : Int)) = claSize n' := by
    intro n'
    unfold claSize
    congr 1
    simp only [m, max_self]
    omega
  have hsize : wrapInt32 ((n : Int) + (m n : Int)) = ((2 * max n (m n) : Nat) : Int) := by
    simp only [wrapInt32, m, max_self]
    omega
  have hcla : claSize n = ((2 * max n (m n) : Nat) : Int) := by
    rw [← hsame, hsize]
  have hcomp : (genAlgorithm n).components =
      [⟨"priority_encoder_", n⟩, ⟨"barrel_shifter_", n⟩, ⟨"decoder_", n⟩,
        ⟨"CLA", ((2 * max n (m n) : Nat) : Int)⟩] := by
    simp only [genAlgorithm, hsize]
  have hinst : (genAlgorithm n).instances =
      [("encoder", ⟨"priority_encoder_", n⟩), ("decoder", ⟨"decoder_", n⟩),
        ("shifter", ⟨"barrel_shifter_", n⟩),
        ("adder", ⟨"CLA", ((2 * max n (m n) : Nat) : Int)⟩)] := by
    simp only [genAlgorithm, hcla]
  refine ⟨?_, ?_, ?_, ?_, hm, ?_, ?_⟩
  · rw [hcomp, hinst]
    intro c hc hbase
    have hc' : c = ⟨"CLA", ((2 * max n (m n) : Nat) : Int)⟩ := by
      simp only [List.mem_cons, List.mem_singleton, List.not_mem_nil, or_false, List.map_cons,
        List.map_nil] at hc
      rcases hc with (h | h | h | h) | (h | h | h | h)
      all_goals first
        | exact h
        | (subst h; simp at hbase)
    subst hc'
    exact ⟨rfl, rfl⟩
  · rw [hcomp]
    simp
  · rw [hinst]
    simp
  · rw [hcomp, hinst]
    intro i hi
    simp only [List.mem_cons, List.mem_singleton, List.not_mem_nil, or_false] at hi
    rcases hi with h | h | h | h <;> subst h <;> simp
  · rw [hm, max_self]
    omega
  · intro n' _
    simp only [genAlgorithm, hsame n']
    simp

theorem adder_references_agree_witness :
    (⟨"CLA", ((2 * max 256 (m 256) : Nat) : Int)⟩ : ComponentRef)
        ∈ (genAlgorithm 256).components ∧
      ("adder", (⟨"CLA", ((2 * max 256 (m 256) : Nat) : Int)⟩ : ComponentRef))
        ∈ (genAlgorithm 256).instances ∧
      256 + m 256 ≤ 2 * max 256 (m 256) :=
  ⟨(adder_references_agree 256 (by decide)).2.1,
    (adder_references_agree 256 (by decide)).2.2.1,
    (adder_references_agree 256 (by decide)).2.2.2.2.2.1⟩

/-- C23: for every all-true bit vector of length `L ≥ 0`, `increment` returns
the all-false vector of the same length: the value wraps to zero modulo `2 ^ L`,
the vector is neither extended nor kept at its maximum; `decrement`, in
contrast, keeps the all-false vector as it is. -/
theorem increment_wraps_to_zero (L : Nat) :
    increment (List.replicate L true) = List.replicate L false ∧
      (increment (List.replicate L true)).length = L ∧
      bvValue (increment (List.replicate L true)) =
        (bvValue (List.replicate L true) + 1) % 2 ^ L ∧
      bvValue (increment (List.replicate L true)) = 0 ∧
      decrement (List.replicate L false) = List.replicate L false := by
  have h := increment_replicate_true L
  refine ⟨h, by rw [h]; simp, ?_, by rw [h, bvValue_replicate_false], ?_⟩
  · rw [h, bvValue_replicate_false, bvValue_replicate_true, Nat.mod_self]
  · unfold decrement
    rw [isEmpty_replicate_false]
    simp

end ComponentGenerator
